import Mathlib

/-!
# Verification of the DebtClear debt-payoff core

Shallow embedding of `src/backend/optimizer.py` and the failure-relevant part of
`src/backend/explainer.py`, with theorems checking the natural-language
specification against the code.

Python floats are modelled as rationals (`ℚ`); Python's `round(x, 2)` is
modelled as round-half-to-even at two decimal places (`round2`).  Stateful
loops are modelled by explicit state passing.
-/

/-- A debt record, as in the request model (`main.py`, class `Debt`):
`{name, balance, apr, minPayment}`. -/
structure Debt where
  name : String
  balance : ℚ
  apr : ℚ
  minPayment : ℚ
deriving DecidableEq, Repr

instance : Inhabited Debt := ⟨⟨"", 0, 0, 0⟩⟩

/-- Round-half-to-even to the nearest integer (the rounding Python's `round`
uses), on rationals. -/
def rhe (x : ℚ) : ℤ :=
  let f := x.floor
  let r := x - (f : ℚ)
  if r < 1/2 then f
  else if 1/2 < r then f + 1
  else if f % 2 = 0 then f else f + 1

/-- Python's `round(x, 2)`: round to two decimal places, ties to even. -/
def round2 (x : ℚ) : ℚ := ((rhe (x * 100) : ℚ)) / 100

/-- `optimizer.py` line 121: `debts[i].get('name','') or
debts[i].get('type','Unknown').replace('-',' ').title()`.  The data model has
no `type` key, so an empty name falls back to `"Unknown"`. -/
def debtName (d : Debt) : String := if d.name = "" then "Unknown" else d.name

/-- One per-debt entry of a month's payment schedule
(`optimizer.py` lines 123–129). -/
structure PaymentRec where
  debt_index : ℕ
  debt_name : String
  payment_amount : ℚ
  remaining_balance : ℚ
  paid_off : Bool
deriving DecidableEq, Repr

/-- Output of the minimum-payment loop of one month. -/
structure MinOut where
  bals : List ℚ
  recs : List PaymentRec
  paid : ℚ
deriving DecidableEq, Repr

/-- `optimizer.py` lines 113–131: pay minimums on every debt with positive
balance; each payment is `min(minPayment, balance)`; record the payment; clamp
the balance at zero.  The list is the zip of debts with their current
balances; `i` is the index of the first element. -/
def minPhase : List (Debt × ℚ) → ℕ → MinOut
  | [], _ => ⟨[], [], 0⟩
  | (d, b) :: rest, i =>
    let tail := minPhase rest (i + 1)
    if 0 < b then
      let pay := min d.minPayment b
      let b1 := b - pay
      ⟨max 0 b1 :: tail.bals,
       ⟨i, debtName d, round2 pay, round2 (max 0 b1), decide (b1 ≤ 1/100)⟩ :: tail.recs,
       pay + tail.paid⟩
    else ⟨b :: tail.bals, tail.recs, tail.paid⟩

/-- Output of the extra-payment loop of one month. -/
structure ExtraOut where
  bals : List ℚ
  recs : List PaymentRec
  paid : ℚ
deriving DecidableEq, Repr

/-- `optimizer.py` lines 141–146: update the payment record of the debt that
received the extra payment. -/
def extraUpdate (idx : ℕ) (pay newBal : ℚ) (p : PaymentRec) : PaymentRec :=
  if p.debt_index = idx then
    { p with payment_amount := p.payment_amount + round2 pay,
             remaining_balance := round2 (max 0 newBal),
             paid_off := decide (newBal ≤ 1/100) }
  else p

/-- `optimizer.py` lines 133–148: scan `order`; the first debt with positive
balance (while `extra > 0`) receives `min(extra, balance)`; then `break` —
the surplus is not redistributed. -/
def extraPhase (bals : List ℚ) (recs : List PaymentRec) (extra : ℚ) :
    List ℕ → ExtraOut
  | [] => ⟨bals, recs, 0⟩
  | idx :: rest =>
    if 0 < bals.getD idx 0 ∧ 0 < extra then
      let b := bals.getD idx 0
      let pay := min extra b
      ⟨bals.set idx (b - pay), recs.map (extraUpdate idx pay (b - pay)), pay⟩
    else extraPhase bals recs extra rest

/-- `optimizer.py` lines 104–108: total minimum payments due on debts with
positive balance. -/
def minTotalDue (debts : List Debt) (bals : List ℚ) : ℚ :=
  ((debts.zip bals).map fun p => if 0 < p.2 then p.1.minPayment else 0).sum

/-- `optimizer.py` lines 150–155: interest for the month, accrued on each
positive post-payment balance at `apr / 100 / 12`.  Interest is summed into a
separate accumulator, never added to the balances. -/
def monthInterest (debts : List Debt) (bals : List ℚ) : ℚ :=
  ((debts.zip bals).map fun p => if 0 < p.2 then p.2 * (p.1.apr / 100 / 12) else 0).sum

/-- Everything one simulated month produces. -/
structure StepOut where
  bals : List ℚ
  recs : List PaymentRec
  minPaid : ℚ
  extraPaid : ℚ
  interest : ℚ
deriving DecidableEq, Repr

/-- One month of the simulation body (`optimizer.py` lines 100–157):
compute `extra = max(0, budget - minPaymentsTotal)`, pay minimums, apply the
extra to the first debt in priority order, accrue interest. -/
def monthStep (debts : List Debt) (order : List ℕ) (budget : ℚ) (bals : List ℚ) :
    StepOut :=
  let extra := max 0 (budget - minTotalDue debts bals)
  let mo := minPhase (debts.zip bals) 0
  let eo := extraPhase mo.bals mo.recs extra order
  ⟨eo.bals, eo.recs, mo.paid, eo.paid, monthInterest debts eo.bals⟩

/-- The balance evolution of one simulated month. -/
def stepBal (debts : List Debt) (order : List ℕ) (budget : ℚ) (bals : List ℚ) :
    List ℚ :=
  (monthStep debts order budget bals).bals

/-- One entry of `monthly_timeline` (`optimizer.py` lines 167–172). -/
structure TimelineEntry where
  month : ℕ
  remaining_balance : ℚ
  interest_this_month : ℚ
deriving DecidableEq, Repr

/-- One entry of `payment_schedule` (`optimizer.py` lines 160–164). -/
structure SchedEntry where
  month : ℕ
  payments : List PaymentRec
  total_paid : ℚ
deriving DecidableEq, Repr

/-- The dictionary returned by `_calculate_payoff`
(`optimizer.py` lines 174–180). -/
structure PayoffResult where
  months_to_freedom : ℕ
  total_interest : ℚ
  priority_order : List ℕ
  timeline : List TimelineEntry
  payment_schedule : List SchedEntry
deriving DecidableEq, Repr

/-- The `while any(balance > 0)` loop of `_calculate_payoff`
(`optimizer.py` lines 93–172).  `months` is incremented first; when it
exceeds 360 the loop breaks *before* simulating that month (so a
non-convergent run returns `months = 361`).  The `fuel` argument only makes
the recursion structural; starting from `fuel = 361, months = 0` the cap
branch always fires before fuel can run out. -/
def payoffGo (debts : List Debt) (order : List ℕ) (budget : ℚ) :
    ℕ → ℕ → List ℚ → ℚ → List TimelineEntry → List SchedEntry → PayoffResult
  | 0, months, _, ti, tl, sc => ⟨months, round2 ti, order, tl, sc.take 24⟩
  | fuel + 1, months, bals, ti, tl, sc =>
    if bals.any fun b => decide (0 < b) then
      let m := months + 1
      if 360 < m then ⟨m, round2 ti, order, tl, sc.take 24⟩
      else
        let st := monthStep debts order budget bals
        payoffGo debts order budget fuel m st.bals (ti + st.interest)
          (if m ≤ 12 then tl ++ [⟨m, round2 st.bals.sum, round2 st.interest⟩] else tl)
          (sc ++ [⟨m, st.recs, round2 (st.minPaid + st.extraPaid)⟩])
    else ⟨months, round2 ti, order, tl, sc.take 24⟩

/-- `_calculate_payoff(debts, order, budget)` (`optimizer.py` lines 79–180). -/
def calculate_payoff (debts : List Debt) (order : List ℕ) (budget : ℚ) :
    PayoffResult :=
  payoffGo debts order budget 361 0 (debts.map (·.balance)) 0 [] []

/-- APR of the debt at index `i`. -/
def aprAt (debts : List Debt) (i : ℕ) : ℚ := (debts.getD i default).apr

/-- Balance of the debt at index `i`. -/
def balAt (debts : List Debt) (i : ℕ) : ℚ := (debts.getD i default).balance

/-- The comparison Python's stable `sorted(range(n), key=apr, reverse=True)`
realises: strictly larger APR first, ties broken by original index.  With the
index tie-break this is a total strict order on indices, so the sorted result
is the unique list sorted by it, independent of the sorting algorithm. -/
def avalancheRel (debts : List Debt) (i j : ℕ) : Prop :=
  aprAt debts j < aprAt debts i ∨ (aprAt debts i = aprAt debts j ∧ i ≤ j)

instance (debts : List Debt) : DecidableRel (avalancheRel debts) := fun i j =>
  inferInstanceAs (Decidable
    (aprAt debts j < aprAt debts i ∨ (aprAt debts i = aprAt debts j ∧ i ≤ j)))

/-- `_avalanche_method`'s ordering (`optimizer.py` lines 36–40): indices
sorted by descending APR, stable. -/
def avalanche_order (debts : List Debt) : List ℕ :=
  List.insertionSort (avalancheRel debts) (List.range debts.length)

/-- The comparison of `sorted(range(n), key=balance)`: ascending balance,
ties broken by original index. -/
def snowballRel (debts : List Debt) (i j : ℕ) : Prop :=
  balAt debts i < balAt debts j ∨ (balAt debts i = balAt debts j ∧ i ≤ j)

instance (debts : List Debt) : DecidableRel (snowballRel debts) := fun i j =>
  inferInstanceAs (Decidable
    (balAt debts i < balAt debts j ∨ (balAt debts i = balAt debts j ∧ i ≤ j)))

/-- `_snowball_method`'s ordering (`optimizer.py` lines 49–54): indices
sorted by ascending balance, stable. -/
def snowball_order (debts : List Debt) : List ℕ :=
  List.insertionSort (snowballRel debts) (List.range debts.length)

/-- The hybrid score (`optimizer.py` lines 63–67):
`apr * 0.5 + (5000 / max(balance, 100)) * 0.3 + minPayment * 0.2`. -/
def hybridScore (d : Debt) : ℚ :=
  d.apr * (0.5 : ℚ) + (5000 / max d.balance 100) * (0.3 : ℚ) + d.minPayment * (0.2 : ℚ)

/-- Score of the debt at index `i` (the `scores[i]` lookup). -/
def scoreAt (debts : List Debt) (i : ℕ) : ℚ := (debts.map hybridScore).getD i 0

/-- The comparison of `sorted(range(n), key=score, reverse=True)`. -/
def hybridRel (debts : List Debt) (i j : ℕ) : Prop :=
  scoreAt debts j < scoreAt debts i ∨ (scoreAt debts i = scoreAt debts j ∧ i ≤ j)

instance (debts : List Debt) : DecidableRel (hybridRel debts) := fun i j =>
  inferInstanceAs (Decidable
    (scoreAt debts j < scoreAt debts i ∨ (scoreAt debts i = scoreAt debts j ∧ i ≤ j)))

/-- `_hybrid_method`'s ordering (`optimizer.py` lines 61–75). -/
def hybrid_order (debts : List Debt) : List ℕ :=
  List.insertionSort (hybridRel debts) (List.range debts.length)

/-- `_avalanche_method` (`optimizer.py` lines 31–42). -/
def avalanche_method (debts : List Debt) (budget : ℚ) : PayoffResult :=
  calculate_payoff debts (avalanche_order debts) budget

/-- `_snowball_method` (`optimizer.py` lines 44–54). -/
def snowball_method (debts : List Debt) (budget : ℚ) : PayoffResult :=
  calculate_payoff debts (snowball_order debts) budget

/-- `_hybrid_method` (`optimizer.py` lines 56–77). -/
def hybrid_method (debts : List Debt) (budget : ℚ) : PayoffResult :=
  calculate_payoff debts (hybrid_order debts) budget

/-- The dictionary returned by `DebtOptimizer.optimize`
(`optimizer.py` lines 22–29). -/
structure OptimizeResult where
  avalanche : PayoffResult
  snowball : PayoffResult
  hybrid : PayoffResult
  recommended : String
deriving DecidableEq, Repr

/-- `DebtOptimizer.optimize` (`optimizer.py` lines 12–29). -/
def optimize (debts : List Debt) (monthly_budget : ℚ) : OptimizeResult :=
  ⟨avalanche_method debts monthly_budget,
   snowball_method debts monthly_budget,
   hybrid_method debts monthly_budget,
   "hybrid"⟩

/-- One `{budget, months, interest}` record of the scenario loop
(`optimizer.py` lines 196–200). -/
structure Scenario where
  budget : ℚ
  months : ℕ
  interest : ℚ
deriving DecidableEq, Repr

/-- The list the loop body of `calculate_budget_scenarios` accumulates
(`optimizer.py` lines 189–200): one hybrid-strategy run per budget in
`[base, base+100, base+200]`. -/
def budget_scenarios_loop (debts : List Debt) (base_budget : ℚ) : List Scenario :=
  [base_budget, base_budget + 100, base_budget + 200].map fun budget =>
    let result := optimize debts budget
    ⟨budget, result.hybrid.months_to_freedom, result.hybrid.total_interest⟩

/-- `calculate_budget_scenarios` (`optimizer.py` lines 184–200).  The function
builds `scenarios` but then falls off the end of its body: the only
`return scenarios` in the file (line 242) sits after the `return` of
`calculate_with_extra_payment` and is dead code.  A Python function that
falls off its end returns `None`, modelled here as `none`. -/
def calculate_budget_scenarios (debts : List Debt) (base_budget : ℚ) :
    Option (List Scenario) :=
  let _scenarios := budget_scenarios_loop debts base_budget
  none

/-- A `{months, interest}` summary inside `calculate_with_extra_payment`'s
result. -/
structure ImpactSummary where
  months : ℕ
  interest : ℚ
deriving DecidableEq, Repr

/-- The dictionary returned by `calculate_with_extra_payment`
(`optimizer.py` lines 226–241), together with `callerDebts`: the list object
the caller passed in, as it stands after the call.  The source copies every
debt (`debts_copy = [debt.copy() for debt in debts]`, line 212) and writes the
reduced balance into the copy, so the caller's list is returned unchanged;
had the source mutated `debts` in place, this field would hold the updated
list. -/
structure ExtraPaymentResult where
  original : ImpactSummary
  accelerated : ImpactSummary
  months_saved : ℤ
  interest_saved : ℚ
  callerDebts : List Debt
deriving DecidableEq, Repr

/-- `calculate_with_extra_payment(debts, base_budget, extra_payment)`
(`optimizer.py` lines 201–241). -/
def calculate_with_extra_payment (debts : List Debt) (base_budget extra_payment : ℚ) :
    ExtraPaymentResult :=
  let original := optimize debts base_budget
  let debts_copy := debts.map fun d => (⟨d.name, d.balance, d.apr, d.minPayment⟩ : Debt)
  let horder := original.hybrid.priority_order
  let debts_upd :=
    match horder with
    | [] => debts_copy
    | priority_debt_index :: _ =>
      if 0 < extra_payment then
        debts_copy.set priority_debt_index
          (let d := debts_copy.getD priority_debt_index default
           { d with balance := max 0 (d.balance - extra_payment) })
      else debts_copy
  let accelerated := optimize debts_upd base_budget
  ⟨⟨original.hybrid.months_to_freedom, original.hybrid.total_interest⟩,
   ⟨accelerated.hybrid.months_to_freedom, accelerated.hybrid.total_interest⟩,
   (original.hybrid.months_to_freedom : ℤ) - (accelerated.hybrid.months_to_freedom : ℤ),
   original.hybrid.total_interest - accelerated.hybrid.total_interest,
   debts⟩

/-- `SHAPExplainer._extract_features` (`explainer.py` lines 56–70).  The
fourth feature divides `minPayment / balance` with no guard; Python raises
`ZeroDivisionError` when `balance == 0`, modelled as `Except.error`.
`np.log` is transcendental, so the (failure-irrelevant) logarithm is passed
in as a parameter. -/
def extract_features (log : ℚ → ℚ) : List Debt → Except String (List (List ℚ))
  | [] => Except.ok []
  | d :: rest =>
    if d.balance = 0 then Except.error "float division by zero"
    else
      match extract_features log rest with
      | Except.error e => Except.error e
      | Except.ok fs =>
        Except.ok ([d.apr, log (d.balance + 1), 10000 / max d.balance 100,
          d.minPayment / d.balance * 100] :: fs)

/-- `SHAPExplainer.explain_recommendation` (`explainer.py` lines 20–54): it
first calls `_extract_features`; the random-forest fit, SHAP values and
templated text that follow never raise on the division path and are
abstracted as the `fitModel` parameter.  An exception from feature extraction
propagates out of the whole call. -/
def explain_recommendation {α : Type} (log : ℚ → ℚ)
    (fitModel : List (List ℚ) → List ℕ → α)
    (debts : List Debt) (priority_order : List ℕ) : Except String α :=
  match extract_features log debts with
  | Except.error e => Except.error e
  | Except.ok features => Except.ok (fitModel features priority_order)

/-! ## Rounding lemmas -/

/-- `Rat.floor` agrees with the `Int.floor` of the order structure. -/
theorem ratFloor_intFloor (x : ℚ) : x.floor = ⌊x⌋ :=
  (Rat.floor_def' x).trans Rat.floor_def.symm

theorem rhe_bounds (x : ℚ) : ⌊x⌋ ≤ rhe x ∧ rhe x ≤ ⌊x⌋ + 1 := by
  simp only [rhe, ratFloor_intFloor]
  split_ifs <;> omega

theorem rhe_mono {x y : ℚ} (h : x ≤ y) : rhe x ≤ rhe y := by
  rcases lt_or_le ⌊x⌋ ⌊y⌋ with hf | hf
  · have h1 := (rhe_bounds x).2
    have h2 := (rhe_bounds y).1
    omega
  · have hxy : ⌊x⌋ = ⌊y⌋ := le_antisymm (Int.floor_le_floor h) hf
    simp only [rhe, ratFloor_intFloor, hxy]
    have hr : x - (⌊y⌋ : ℚ) ≤ y - (⌊y⌋ : ℚ) := by linarith
    split_ifs <;> first | omega | (exfalso; linarith)

theorem round2_mono {x y : ℚ} (h : x ≤ y) : round2 x ≤ round2 y := by
  have : (rhe (x * 100) : ℚ) ≤ (rhe (y * 100) : ℚ) := by
    exact_mod_cast rhe_mono (by linarith)
  simp only [round2]
  linarith

theorem rhe_intCast (n : ℤ) : rhe (n : ℚ) = n := by
  simp [rhe, ratFloor_intFloor]

/-! ## Cent-quantised rationals

Monetary inputs are whole numbers of cents; on such values `round2` is the
identity, so the recorded (rounded) payment figures coincide with the exact
payments. -/

/-- `x` is a whole number of cents. -/
def IsCents (x : ℚ) : Prop := ∃ n : ℤ, x = (n : ℚ) / 100

theorem IsCents.zero : IsCents 0 := ⟨0, by norm_num⟩

theorem IsCents.add {x y : ℚ} (hx : IsCents x) (hy : IsCents y) : IsCents (x + y) := by
  obtain ⟨m, rfl⟩ := hx; obtain ⟨n, rfl⟩ := hy
  exact ⟨m + n, by push_cast; ring⟩

theorem IsCents.sub {x y : ℚ} (hx : IsCents x) (hy : IsCents y) : IsCents (x - y) := by
  obtain ⟨m, rfl⟩ := hx; obtain ⟨n, rfl⟩ := hy
  exact ⟨m - n, by push_cast; ring⟩

theorem IsCents.max {x y : ℚ} (hx : IsCents x) (hy : IsCents y) : IsCents (max x y) := by
  rcases le_total x y with h | h
  · rwa [max_eq_right h]
  · rwa [max_eq_left h]

theorem IsCents.min {x y : ℚ} (hx : IsCents x) (hy : IsCents y) : IsCents (min x y) := by
  rcases le_total x y with h | h
  · rwa [min_eq_left h]
  · rwa [min_eq_right h]

theorem IsCents.listSum {l : List ℚ} (h : ∀ x ∈ l, IsCents x) : IsCents l.sum := by
  induction l with
  | nil => exact IsCents.zero
  | cons a l ih =>
    simp only [List.sum_cons]
    exact (h a (by simp)).add (ih fun x hx => h x (by simp [hx]))

theorem round2_cents {x : ℚ} (hx : IsCents x) : round2 x = x := by
  obtain ⟨n, rfl⟩ := hx
  have h100 : ((n : ℚ) / 100) * 100 = (n : ℚ) := by field_simp
  simp [round2, h100, rhe_intCast]

/-! ## C7: strategy orderings -/

/-- Generic fact about sorting `range n` by a total, transitive comparison:
the output is a permutation of `range n` and pairwise related with distinct
entries. -/
theorem insertionSort_range_pairwise (r : ℕ → ℕ → Prop) [DecidableRel r]
    (total : ∀ i j, r i j ∨ r j i) (htrans : ∀ i j k, r i j → r j k → r i k)
    (n : ℕ) :
    (List.insertionSort r (List.range n)).Perm (List.range n) ∧
      (List.insertionSort r (List.range n)).Pairwise fun i j => r i j ∧ i ≠ j := by
  haveI : IsTotal ℕ r := ⟨total⟩
  haveI : IsTrans ℕ r := ⟨htrans⟩
  have hperm := List.perm_insertionSort r (List.range n)
  have hsorted : (List.insertionSort r (List.range n)).Pairwise r :=
    List.sorted_insertionSort r (List.range n)
  have hnodup : (List.insertionSort r (List.range n)).Nodup :=
    hperm.nodup_iff.mpr (List.nodup_range n)
  exact ⟨hperm, hsorted.imp₂ (fun _ _ h h' => ⟨h, h'⟩) hnodup⟩

theorem avalancheRel_total (debts : List Debt) (i j : ℕ) :
    avalancheRel debts i j ∨ avalancheRel debts j i := by
  unfold avalancheRel
  rcases lt_trichotomy (aprAt debts i) (aprAt debts j) with h | h | h
  · exact Or.inr (Or.inl h)
  · rcases Nat.le_total i j with hij | hij
    · exact Or.inl (Or.inr ⟨h, hij⟩)
    · exact Or.inr (Or.inr ⟨h.symm, hij⟩)
  · exact Or.inl (Or.inl h)

theorem avalancheRel_trans (debts : List Debt) (i j k : ℕ)
    (h1 : avalancheRel debts i j) (h2 : avalancheRel debts j k) :
    avalancheRel debts i k := by
  unfold avalancheRel at *
  rcases h1 with h1 | ⟨e1, l1⟩ <;> rcases h2 with h2 | ⟨e2, l2⟩
  · exact Or.inl (h2.trans h1)
  · exact Or.inl (e2 ▸ h1)
  · exact Or.inl (e1 ▸ h2)
  · exact Or.inr ⟨e1.trans e2, l1.trans l2⟩

theorem snowballRel_total (debts : List Debt) (i j : ℕ) :
    snowballRel debts i j ∨ snowballRel debts j i := by
  unfold snowballRel
  rcases lt_trichotomy (balAt debts i) (balAt debts j) with h | h | h
  · exact Or.inl (Or.inl h)
  · rcases Nat.le_total i j with hij | hij
    · exact Or.inl (Or.inr ⟨h, hij⟩)
    · exact Or.inr (Or.inr ⟨h.symm, hij⟩)
  · exact Or.inr (Or.inl h)

theorem snowballRel_trans (debts : List Debt) (i j k : ℕ)
    (h1 : snowballRel debts i j) (h2 : snowballRel debts j k) :
    snowballRel debts i k := by
  unfold snowballRel at *
  rcases h1 with h1 | ⟨e1, l1⟩ <;> rcases h2 with h2 | ⟨e2, l2⟩
  · exact Or.inl (h1.trans h2)
  · exact Or.inl (e2 ▸ h1)
  · exact Or.inl (e1 ▸ h2)
  · exact Or.inr ⟨e1.trans e2, l1.trans l2⟩

/-- **C7.**  The avalanche ordering is a permutation of the debt indices along
which APR is non-increasing, the snowball ordering is a permutation along
which balance is non-decreasing, and in both orderings debts with equal keys
appear in their original index order (the stable tie-break). -/
theorem C7_orderings (debts : List Debt) :
    (avalanche_order debts).Perm (List.range debts.length) ∧
    (avalanche_order debts).Pairwise
      (fun i j => aprAt debts j ≤ aprAt debts i ∧ (aprAt debts i = aprAt debts j → i < j)) ∧
    (snowball_order debts).Perm (List.range debts.length) ∧
    (snowball_order debts).Pairwise
      (fun i j => balAt debts i ≤ balAt debts j ∧ (balAt debts i = balAt debts j → i < j)) := by
  obtain ⟨hA, hApw⟩ := insertionSort_range_pairwise (avalancheRel debts)
    (avalancheRel_total debts) (avalancheRel_trans debts) debts.length
  obtain ⟨hS, hSpw⟩ := insertionSort_range_pairwise (snowballRel debts)
    (snowballRel_total debts) (snowballRel_trans debts) debts.length
  refine ⟨hA, hApw.imp ?_, hS, hSpw.imp ?_⟩
  · rintro i j ⟨h, hne⟩
    rcases h with h | ⟨he, hle⟩
    · exact ⟨h.le, fun he => absurd he.symm h.ne⟩
    · exact ⟨he.ge, fun _ => lt_of_le_of_ne hle hne⟩
  · rintro i j ⟨h, hne⟩
    rcases h with h | ⟨he, hle⟩
    · exact ⟨h.le, fun he => absurd he h.ne⟩
    · exact ⟨he.le, fun _ => lt_of_le_of_ne hle hne⟩

/-! ## C6: allocation of the extra payment -/

/-- Characterisation of the extra-payment loop on the balances: when
`extra > 0` the first debt in `order` with positive balance receives
`min(extra, balance)` (a single `List.set`); otherwise nothing changes. -/
theorem extraPhase_bals_eq (recs : List PaymentRec) (extra : ℚ) :
    ∀ (order : List ℕ) (bals : List ℚ),
    (extraPhase bals recs extra order).bals =
      if 0 < extra then
        match order.find? (fun i => decide (0 < bals.getD i 0)) with
        | some j => bals.set j (bals.getD j 0 - min extra (bals.getD j 0))
        | none => bals
      else bals := by
  intro order
  induction order with
  | nil => intro bals; simp [extraPhase]
  | cons idx rest ih =>
    intro bals
    by_cases he : 0 < extra
    · by_cases hb : 0 < bals.getD idx 0
      · have hf : (idx :: rest).find? (fun i => decide (0 < bals.getD i 0)) = some idx :=
          List.find?_cons_of_pos _ (by simpa using hb)
        rw [extraPhase, if_pos ⟨hb, he⟩, hf, if_pos he]
      · have hf : (idx :: rest).find? (fun i => decide (0 < bals.getD i 0)) =
            rest.find? (fun i => decide (0 < bals.getD i 0)) :=
          List.find?_cons_of_neg _ (by simpa using hb)
        rw [extraPhase, if_neg (fun h => hb h.1), hf, ih bals]
    · have hcond : ¬(0 < bals.getD idx 0 ∧ 0 < extra) := fun h => he h.2
      rw [extraPhase, if_neg hcond, ih bals, if_neg he, if_neg he]

/-- Similarly, the amount the extra-payment loop disburses. -/
theorem extraPhase_paid_eq (recs : List PaymentRec) (extra : ℚ) :
    ∀ (order : List ℕ) (bals : List ℚ),
    (extraPhase bals recs extra order).paid =
      if 0 < extra then
        match order.find? (fun i => decide (0 < bals.getD i 0)) with
        | some j => min extra (bals.getD j 0)
        | none => 0
      else 0 := by
  intro order
  induction order with
  | nil => intro bals; simp [extraPhase]
  | cons idx rest ih =>
    intro bals
    by_cases he : 0 < extra
    · by_cases hb : 0 < bals.getD idx 0
      · have hf : (idx :: rest).find? (fun i => decide (0 < bals.getD i 0)) = some idx :=
          List.find?_cons_of_pos _ (by simpa using hb)
        rw [extraPhase, if_pos ⟨hb, he⟩, hf, if_pos he]
      · have hf : (idx :: rest).find? (fun i => decide (0 < bals.getD i 0)) =
            rest.find? (fun i => decide (0 < bals.getD i 0)) :=
          List.find?_cons_of_neg _ (by simpa using hb)
        rw [extraPhase, if_neg (fun h => hb h.1), hf, ih bals]
    · have hcond : ¬(0 < bals.getD idx 0 ∧ 0 < extra) := fun h => he h.2
      rw [extraPhase, if_neg hcond, ih bals, if_neg he, if_neg he]

/-- **C6.**  In every simulated month the entire extra amount
(`max(0, budget - minimums due)`) is applied to exactly the first debt in the
priority order whose balance is still positive after minimum payments,
clamped to that debt's remaining balance (a single `List.set`); no other
balance changes, and any surplus beyond that debt's balance is not
redistributed in the same month. -/
theorem C6_extra_single_target (debts : List Debt) (order : List ℕ) (budget : ℚ)
    (bals : List ℚ) :
    (monthStep debts order budget bals).bals =
      (let mb := (minPhase (debts.zip bals) 0).bals
       let extra := max 0 (budget - minTotalDue debts bals)
       if 0 < extra then
         match order.find? (fun i => decide (0 < mb.getD i 0)) with
         | some j => mb.set j (mb.getD j 0 - min extra (mb.getD j 0))
         | none => mb
       else mb) ∧
    (monthStep debts order budget bals).extraPaid =
      (let mb := (minPhase (debts.zip bals) 0).bals
       let extra := max 0 (budget - minTotalDue debts bals)
       if 0 < extra then
         match order.find? (fun i => decide (0 < mb.getD i 0)) with
         | some j => min extra (mb.getD j 0)
         | none => 0
       else 0) := by
  constructor
  · simp only [monthStep]
    rw [extraPhase_bals_eq]
  · simp only [monthStep]
    rw [extraPhase_paid_eq]

/-! ## C1: the 360-month cap -/

theorem minPhase_bals_length : ∀ (ps : List (Debt × ℚ)) (i : ℕ),
    (minPhase ps i).bals.length = ps.length := by
  intro ps
  induction ps with
  | nil => intro i; simp [minPhase]
  | cons p rest ih =>
    intro i
    obtain ⟨d, b⟩ := p
    by_cases hb : 0 < b <;> simp [minPhase, hb, ih]

theorem extraPhase_bals_length (recs : List PaymentRec) (extra : ℚ) :
    ∀ (order : List ℕ) (bals : List ℚ),
    (extraPhase bals recs extra order).bals.length = bals.length := by
  intro order
  induction order with
  | nil => intro bals; simp [extraPhase]
  | cons idx rest ih =>
    intro bals
    by_cases hc : 0 < bals.getD idx 0 ∧ 0 < extra
    · rw [extraPhase, if_pos hc]; simp
    · rw [extraPhase, if_neg hc]; exact ih bals

theorem stepBal_length (debts : List Debt) (order : List ℕ) (budget : ℚ)
    (bals : List ℚ) (h : bals.length = debts.length) :
    (stepBal debts order budget bals).length = debts.length := by
  simp [stepBal, monthStep, extraPhase_bals_length, minPhase_bals_length,
    List.length_zip, h]

theorem getD_nonpos_of_forall {bals : List ℚ} (h : ∀ b ∈ bals, b ≤ 0) (idx : ℕ) :
    bals.getD idx 0 ≤ 0 := by
  rcases lt_or_le idx bals.length with hlt | hle
  · rw [List.getD_eq_getElem _ _ hlt]
    exact h _ (List.getElem_mem hlt)
  · rw [List.getD_eq_default _ _ hle]

theorem minPhase_bals_noPos : ∀ (debts : List Debt) (bals : List ℚ) (i : ℕ),
    bals.length = debts.length → (∀ b ∈ bals, b ≤ 0) →
    (minPhase (debts.zip bals) i).bals = bals := by
  intro debts
  induction debts with
  | nil =>
    intro bals i hlen _
    rw [List.length_nil] at hlen
    rw [List.eq_nil_of_length_eq_zero hlen]
    simp [minPhase]
  | cons d rest ih =>
    intro bals i hlen hnp
    cases bals with
    | nil => simp at hlen
    | cons b bs =>
      have hb : ¬ 0 < b := not_lt.mpr (hnp b (by simp))
      show ((minPhase ((d, b) :: rest.zip bs) i)).bals = b :: bs
      rw [minPhase, if_neg hb]
      exact congrArg (b :: ·) (ih bs (i + 1) (by simpa using hlen)
        (fun x hx => hnp x (by simp [hx])))

theorem extraPhase_bals_noPos (recs : List PaymentRec) (extra : ℚ)
    (bals : List ℚ) (hnp : ∀ b ∈ bals, b ≤ 0) :
    ∀ order : List ℕ, (extraPhase bals recs extra order).bals = bals := by
  intro order
  induction order with
  | nil => simp [extraPhase]
  | cons idx rest ih =>
    have hb : ¬ 0 < bals.getD idx 0 := not_lt.mpr (getD_nonpos_of_forall hnp idx)
    rw [extraPhase, if_neg (fun h => hb h.1)]
    exact ih

theorem stepBal_noPos (debts : List Debt) (order : List ℕ) (budget : ℚ)
    (bals : List ℚ) (hlen : bals.length = debts.length)
    (hnp : ∀ b ∈ bals, b ≤ 0) :
    stepBal debts order budget bals = bals := by
  simp only [stepBal, monthStep]
  rw [minPhase_bals_noPos debts bals 0 hlen hnp]
  exact extraPhase_bals_noPos _ _ bals hnp order

theorem any_pos_iff (bals : List ℚ) :
    (bals.any fun b => decide (0 < b)) = true ↔ ¬ ∀ b ∈ bals, b ≤ 0 := by
  simp [List.any_eq_true, not_forall, not_le]

/-- Unfolding lemma: a finished run returns the accumulators. -/
theorem payoffGo_done (debts : List Debt) (order : List ℕ) (budget : ℚ)
    (fuel months : ℕ) (bals : List ℚ) (ti : ℚ) (tl : List TimelineEntry)
    (sc : List SchedEntry) (hA : ¬ (bals.any fun b => decide (0 < b)) = true) :
    payoffGo debts order budget fuel months bals ti tl sc =
      ⟨months, round2 ti, order, tl, sc.take 24⟩ := by
  cases fuel with
  | zero => rfl
  | succ f => rw [payoffGo, if_neg hA]

/-- Unfolding lemma: the 360-month cap fires. -/
theorem payoffGo_cap (debts : List Debt) (order : List ℕ) (budget : ℚ)
    (f months : ℕ) (bals : List ℚ) (ti : ℚ) (tl : List TimelineEntry)
    (sc : List SchedEntry) (hA : (bals.any fun b => decide (0 < b)) = true)
    (hcap : 360 < months + 1) :
    payoffGo debts order budget (f + 1) months bals ti tl sc =
      ⟨months + 1, round2 ti, order, tl, sc.take 24⟩ := by
  rw [payoffGo, if_pos hA, if_pos hcap]

/-- Unfolding lemma: one simulated month. -/
theorem payoffGo_step (debts : List Debt) (order : List ℕ) (budget : ℚ)
    (f months : ℕ) (bals : List ℚ) (ti : ℚ) (tl : List TimelineEntry)
    (sc : List SchedEntry) (hA : (bals.any fun b => decide (0 < b)) = true)
    (hcap : ¬ 360 < months + 1) :
    payoffGo debts order budget (f + 1) months bals ti tl sc =
      payoffGo debts order budget f (months + 1)
        (monthStep debts order budget bals).bals
        (ti + (monthStep debts order budget bals).interest)
        (if months + 1 ≤ 12 then
          tl ++ [⟨months + 1, round2 (monthStep debts order budget bals).bals.sum,
            round2 (monthStep debts order budget bals).interest⟩]
         else tl)
        (sc ++ [⟨months + 1, (monthStep debts order budget bals).recs,
          round2 ((monthStep debts order budget bals).minPaid +
            (monthStep debts order budget bals).extraPaid)⟩]) := by
  rw [payoffGo, if_pos hA, if_neg hcap]

/-- Lower bound: the returned month count never drops below the running
counter. -/
theorem payoffGo_months_ge (debts : List Debt) (order : List ℕ) (budget : ℚ) :
    ∀ (fuel months : ℕ) (bals : List ℚ) (ti : ℚ) (tl : List TimelineEntry)
      (sc : List SchedEntry),
    months ≤ (payoffGo debts order budget fuel months bals ti tl sc).months_to_freedom := by
  intro fuel
  induction fuel with
  | zero => intro months bals ti tl sc; simp [payoffGo]
  | succ f ih =>
    intro months bals ti tl sc
    rw [payoffGo]
    by_cases hA : (bals.any fun b => decide (0 < b)) = true
    · rw [if_pos hA]
      by_cases hcap : 360 < months + 1
      · rw [if_pos hcap]; exact Nat.le_succ months
      · rw [if_neg hcap]
        exact (Nat.le_succ months).trans (ih (months + 1) _ _ _ _)
    · rw [if_neg hA]

theorem payoffGo_months_le (debts : List Debt) (order : List ℕ) (budget : ℚ) :
    ∀ (fuel months : ℕ) (bals : List ℚ) (ti : ℚ) (tl : List TimelineEntry)
      (sc : List SchedEntry), months ≤ 360 →
    (payoffGo debts order budget fuel months bals ti tl sc).months_to_freedom ≤ 361 := by
  intro fuel
  induction fuel with
  | zero => intro months bals ti tl sc h; simpa [payoffGo] using h.trans (by norm_num)
  | succ f ih =>
    intro months bals ti tl sc h
    rw [payoffGo]
    by_cases hA : (bals.any fun b => decide (0 < b)) = true
    · rw [if_pos hA]
      by_cases hcap : 360 < months + 1
      · rw [if_pos hcap]; simpa using h
      · rw [if_neg hcap]
        exact ih (months + 1) _ _ _ _ (by omega)
    · rw [if_neg hA]; simpa using h.trans (by norm_num)

/-- Characterisation of a non-convergent run: the result is month 361 exactly
when some balance is still positive after the 360 simulated months. -/
theorem payoffGo_months_eq_361_iff (debts : List Debt) (order : List ℕ) (budget : ℚ) :
    ∀ (fuel months : ℕ) (bals : List ℚ) (ti : ℚ) (tl : List TimelineEntry)
      (sc : List SchedEntry),
    months + fuel = 361 → 1 ≤ fuel → bals.length = debts.length →
    ((payoffGo debts order budget fuel months bals ti tl sc).months_to_freedom = 361 ↔
      ¬ ∀ b ∈ (stepBal debts order budget)^[fuel - 1] bals, b ≤ 0) := by
  intro fuel
  induction fuel with
  | zero => intro months bals ti tl sc _ h2; omega
  | succ f ih =>
    intro months bals ti tl sc h1 _ hlen
    by_cases hA : (bals.any fun b => decide (0 < b)) = true
    · by_cases hcap : 360 < months + 1
      · rw [payoffGo_cap debts order budget f months bals ti tl sc hA hcap]
        have hm : months = 360 := by omega
        subst hm
        have hf : f = 0 := by omega
        subst hf
        have hx : ¬ ∀ b ∈ bals, b ≤ 0 := (any_pos_iff bals).mp hA
        simpa using hx
      · rw [payoffGo_step debts order budget f months bals ti tl sc hA hcap]
        have hf1 : 1 ≤ f := by omega
        obtain ⟨f', rfl⟩ : ∃ f', f = f' + 1 := ⟨f - 1, by omega⟩
        have hstep : (monthStep debts order budget bals).bals =
            stepBal debts order budget bals := rfl
        rw [hstep, ih (months + 1) _ _ _ _ (by omega) (by omega)
          (stepBal_length debts order budget bals hlen)]
        rw [show (f' + 1 + 1) - 1 = (f' + 1 - 1) + 1 by omega,
          Function.iterate_succ_apply]
    · rw [payoffGo_done debts order budget (f + 1) months bals ti tl sc hA]
      have hnp : ∀ b ∈ bals, b ≤ 0 := by
        by_contra hcon
        exact hA ((any_pos_iff bals).mpr hcon)
      constructor
      · intro h
        simp only at h
        omega
      · intro hcon
        exfalso
        apply hcon
        rw [Function.iterate_fixed (stepBal_noPos debts order budget bals hlen hnp)]
        exact hnp

/-- **C1 (amended).**  `months_to_freedom` is always at most 361, and it
equals 361 exactly when the simulation has not driven all balances to zero
after the 360 simulated months — i.e. non-convergence is reported as
`months_to_freedom = 361`, one past the 360-month cap, not as 360. -/
theorem C1_months_cap (debts : List Debt) (order : List ℕ) (budget : ℚ) :
    (calculate_payoff debts order budget).months_to_freedom ≤ 361 ∧
    ((calculate_payoff debts order budget).months_to_freedom = 361 ↔
      ¬ ∀ b ∈ (stepBal debts order budget)^[360] (debts.map (·.balance)), b ≤ 0) := by
  constructor
  · exact payoffGo_months_le debts order budget 361 0 _ 0 [] [] (by omega)
  · exact payoffGo_months_eq_361_iff debts order budget 361 0 _ 0 [] []
      (by omega) (by omega) (by simp)

set_option maxRecDepth 10000 in
unseal Rat.add Rat.sub Rat.mul Rat.inv Rat.ofScientific in
/-- **C1, counterexample to the claim as stated.**  A single debt with zero
minimum payment and zero budget never shrinks, and the simulation returns
`months_to_freedom = 361 > 360`: the claimed bound of 360 is off by one, and
non-convergence is reported as 361. -/
theorem C1_counterexample :
    ¬ (calculate_payoff [⟨"A", 100, 12, 0⟩] [0] 0).months_to_freedom ≤ 360 := by
  decide

/-! ## C4: the single-debt minimum-payment example -/

set_option maxRecDepth 10000 in
unseal Rat.add Rat.sub Rat.mul Rat.inv Rat.ofScientific in
/-- **C4, counterexample to the claim as stated.**  For the single debt
`{balance: 1200, apr: 24, minPayment: 100}` with budget 100 the simulation
finishes in exactly 12 months — it does **not** strictly exceed the
no-interest estimate `ceil(1200/100) = 12`, because interest is accrued in a
separate accumulator and never added to the balances. -/
theorem C4_counterexample :
    ¬ 12 < (calculate_payoff [⟨"A", 1200, 24, 100⟩] [0] 100).months_to_freedom := by
  decide

set_option maxRecDepth 10000 in
unseal Rat.add Rat.sub Rat.mul Rat.inv Rat.ofScientific in
/-- **C4 (amended).**  For the single debt
`{balance: 1200, apr: 24, minPayment: 100}` with budget 100: every strategy
orders the lone debt as `[0]`; in every one of the 12 simulated months the
extra is 0 and exactly the minimum payment of 100 is made, so the payoff
takes exactly the no-interest estimate `ceil(1200/100) = 12` months (interest
is never capitalised into the balance), while the accrued interest is
positive (132.0). -/
theorem C4_example :
    hybrid_order [⟨"A", 1200, 24, 100⟩] = [0] ∧
    avalanche_order [⟨"A", 1200, 24, 100⟩] = [0] ∧
    snowball_order [⟨"A", 1200, 24, 100⟩] = [0] ∧
    (calculate_payoff [⟨"A", 1200, 24, 100⟩] [0] 100).months_to_freedom = 12 ∧
    (calculate_payoff [⟨"A", 1200, 24, 100⟩] [0] 100).months_to_freedom =
      (1200 + 100 - 1) / 100 ∧
    (calculate_payoff [⟨"A", 1200, 24, 100⟩] [0] 100).total_interest = 132 ∧
    0 < (calculate_payoff [⟨"A", 1200, 24, 100⟩] [0] 100).total_interest ∧
    ((List.range 12).map fun k =>
        max 0 (100 - minTotalDue [⟨"A", 1200, 24, 100⟩]
          ((stepBal [⟨"A", 1200, 24, 100⟩] [0] 100)^[k] [1200]))) =
      List.replicate 12 0 ∧
    ((calculate_payoff [⟨"A", 1200, 24, 100⟩] [0] 100).payment_schedule.map
        (·.total_paid)) = List.replicate 12 100 := by
  decide

/-! ## C3: the budget-scenario function never returns its list -/

set_option maxRecDepth 10000 in
unseal Rat.add Rat.sub Rat.mul Rat.inv Rat.ofScientific in
/-- **C3.**  `calculate_budget_scenarios` always returns `None` — its body
builds the scenario list but falls off the end without returning it (the only
`return scenarios` in the file is dead code after
`calculate_with_extra_payment`'s `return`).  At the failing input the loop
body does build exactly the three `{budget, months, interest}` records the
claim describes, one full hybrid-strategy run per budget. -/
theorem C3_returns_none :
    (∀ (debts : List Debt) (base_budget : ℚ),
      calculate_budget_scenarios debts base_budget = none) ∧
    budget_scenarios_loop [⟨"A", 100, 12, 10⟩] 50 =
      [⟨50, 2, 1/2⟩, ⟨150, 1, 0⟩, ⟨250, 1, 0⟩] := by
  exact ⟨fun _ _ => rfl, by decide⟩

/-! ## C8: the caller's debt list is never mutated -/

/-- **C8.**  `calculate_with_extra_payment` leaves the caller's debt list
unchanged: the one-time balance reduction is applied to the copied list only,
so after the call every field of every debt the caller passed in is what it
was before. -/
theorem C8_caller_unchanged (debts : List Debt) (base_budget extra_payment : ℚ) :
    (calculate_with_extra_payment debts base_budget extra_payment).callerDebts = debts ∧
    (calculate_with_extra_payment debts base_budget extra_payment).callerDebts.map
      Debt.name = debts.map Debt.name ∧
    (calculate_with_extra_payment debts base_budget extra_payment).callerDebts.map
      Debt.balance = debts.map Debt.balance ∧
    (calculate_with_extra_payment debts base_budget extra_payment).callerDebts.map
      Debt.apr = debts.map Debt.apr ∧
    (calculate_with_extra_payment debts base_budget extra_payment).callerDebts.map
      Debt.minPayment = debts.map Debt.minPayment :=
  ⟨rfl, rfl, rfl, rfl, rfl⟩

/-! ## C9: unguarded division in the explainer's feature extraction -/

theorem extract_features_error (log : ℚ → ℚ) :
    ∀ debts : List Debt, (∃ d ∈ debts, d.balance = 0) →
    extract_features log debts = Except.error "float division by zero" := by
  intro debts
  induction debts with
  | nil => rintro ⟨d, hd, -⟩; exact absurd hd (List.not_mem_nil d)
  | cons d rest ih =>
    rintro ⟨e, he, hz⟩
    by_cases hd : d.balance = 0
    · rw [extract_features, if_pos hd]
    · rw [extract_features, if_neg hd]
      have : e ∈ rest := by
        rcases List.mem_cons.mp he with rfl | h
        · exact absurd hz hd
        · exact h
      rw [ih ⟨e, this, hz⟩]

/-- **C9.**  For every debt list containing a debt with `balance = 0` (which
the data model allows, balance being only required non-negative), the feature
extraction `minPayment / balance` raises `ZeroDivisionError`, so
`explain_recommendation` fails with the division-by-zero error instead of
producing an explanation — whatever the downstream model fit would have been
and wherever the zero-balance debt sits in the list. -/
theorem C9_zero_balance_fails {α : Type} (log : ℚ → ℚ)
    (fitModel : List (List ℚ) → List ℕ → α)
    (debts : List Debt) (priority_order : List ℕ)
    (h : ∃ d ∈ debts, d.balance = 0) :
    explain_recommendation log fitModel debts priority_order =
      Except.error "float division by zero" := by
  rw [explain_recommendation, extract_features_error log debts h]

/-- Witness for C9 at a concrete input: one zero-balance debt. -/
theorem C9_witness :
    (∃ d ∈ [(⟨"Z", 0, 10, 5⟩ : Debt)], d.balance = 0) ∧
    explain_recommendation (fun _ => 0) (fun _ _ => (0 : ℕ))
      [(⟨"Z", 0, 10, 5⟩ : Debt)] [0] = Except.error "float division by zero" :=
  ⟨⟨⟨"Z", 0, 10, 5⟩, by simp, rfl⟩,
   C9_zero_balance_fails (fun _ => 0) (fun _ _ => (0 : ℕ))
     [(⟨"Z", 0, 10, 5⟩ : Debt)] [0] ⟨⟨"Z", 0, 10, 5⟩, by simp, rfl⟩⟩

/-! ## C2: per-month payment sums -/

theorem getD_cents {bals : List ℚ} (h : ∀ b ∈ bals, IsCents b) (idx : ℕ) :
    IsCents (bals.getD idx 0) := by
  rcases lt_or_le idx bals.length with hlt | hle
  · rw [List.getD_eq_getElem _ _ hlt]
    exact h _ (List.getElem_mem hlt)
  · rw [List.getD_eq_default _ _ hle]
    exact IsCents.zero

/-- With cent-quantised minimum payments and balances, the recorded (rounded)
minimum payments of a month sum to the amount actually paid. -/
theorem minPhase_recs_sum : ∀ (ps : List (Debt × ℚ)) (i : ℕ),
    (∀ p ∈ ps, IsCents p.1.minPayment ∧ IsCents p.2) →
    ((minPhase ps i).recs.map (·.payment_amount)).sum = (minPhase ps i).paid := by
  intro ps
  induction ps with
  | nil => intro i _; simp [minPhase]
  | cons p rest ih =>
    intro i hc
    obtain ⟨d, b⟩ := p
    have hd := hc (d, b) (by simp)
    have hrest : ∀ p ∈ rest, IsCents p.1.minPayment ∧ IsCents p.2 :=
      fun q hq => hc q (by simp [hq])
    by_cases hb : 0 < b
    · have hpay : IsCents (min d.minPayment b) := hd.1.min hd.2
      simp [minPhase, hb, round2_cents hpay, ih (i + 1) hrest]
    · simp [minPhase, hb, ih (i + 1) hrest]

theorem minPhase_recs_index_ge : ∀ (ps : List (Debt × ℚ)) (i : ℕ),
    ∀ p ∈ (minPhase ps i).recs, i ≤ p.debt_index := by
  intro ps
  induction ps with
  | nil => intro i p hp; simp [minPhase] at hp
  | cons q rest ih =>
    intro i p hp
    obtain ⟨d, b⟩ := q
    by_cases hb : 0 < b
    · simp only [minPhase, hb, if_true] at hp
      rcases List.mem_cons.mp hp with rfl | hp
      · exact le_refl i
      · exact (Nat.le_succ i).trans (ih (i + 1) p hp)
    · simp only [minPhase, hb, if_false] at hp
      exact (Nat.le_succ i).trans (ih (i + 1) p hp)

theorem minPhase_recs_sorted : ∀ (ps : List (Debt × ℚ)) (i : ℕ),
    (minPhase ps i).recs.Pairwise (fun p q => p.debt_index < q.debt_index) := by
  intro ps
  induction ps with
  | nil => intro i; simp [minPhase]
  | cons q rest ih =>
    intro i
    obtain ⟨d, b⟩ := q
    by_cases hb : 0 < b
    · simp only [minPhase, hb, if_true]
      exact List.Pairwise.cons
        (fun p hp => Nat.lt_of_lt_of_le (Nat.lt_succ_self i)
          (minPhase_recs_index_ge rest (i + 1) p hp))
        (ih (i + 1))
    · simp only [minPhase, hb, if_false]
      exact ih (i + 1)

/-- A debt whose balance is still positive after minimum payments had a
payment record created for it. -/
theorem minPhase_pos_has_rec : ∀ (ps : List (Debt × ℚ)) (i k : ℕ),
    0 < (minPhase ps i).bals.getD k 0 →
    ∃ p ∈ (minPhase ps i).recs, p.debt_index = i + k := by
  intro ps
  induction ps with
  | nil => intro i k h; simp [minPhase] at h
  | cons q rest ih =>
    intro i k h
    obtain ⟨d, b⟩ := q
    by_cases hb : 0 < b
    · simp only [minPhase, hb, if_true] at h ⊢
      cases k with
      | zero => exact ⟨_, List.mem_cons_self _ _, by simp⟩
      | succ k =>
        obtain ⟨p, hp, hpi⟩ := ih (i + 1) k (by simpa using h)
        exact ⟨p, by simp [hp], by omega⟩
    · simp only [minPhase, hb, if_false] at h ⊢
      cases k with
      | zero => simp at h; exact absurd h hb
      | succ k =>
        obtain ⟨p, hp, hpi⟩ := ih (i + 1) k (by simpa using h)
        exact ⟨p, hp, by omega⟩

theorem map_extraUpdate_of_no_match (idx : ℕ) (pay nb : ℚ) :
    ∀ recs : List PaymentRec, (∀ q ∈ recs, q.debt_index ≠ idx) →
    recs.map (extraUpdate idx pay nb) = recs := by
  intro recs
  induction recs with
  | nil => intro _; rfl
  | cons p rest ih =>
    intro h
    have hp : p.debt_index ≠ idx := h p (by simp)
    simp only [List.map_cons, extraUpdate, hp, if_false]
    rw [ih fun q hq => h q (by simp [hq])]

theorem map_extraUpdate_sum (idx : ℕ) (pay nb : ℚ) :
    ∀ recs : List PaymentRec,
    recs.Pairwise (fun p q => p.debt_index < q.debt_index) →
    (∃ p ∈ recs, p.debt_index = idx) →
    ((recs.map (extraUpdate idx pay nb)).map (·.payment_amount)).sum =
      (recs.map (·.payment_amount)).sum + round2 pay := by
  intro recs
  induction recs with
  | nil => rintro _ ⟨p, hp, -⟩; exact absurd hp (List.not_mem_nil p)
  | cons p rest ih =>
    intro hpw hex
    have hhead := List.pairwise_cons.mp hpw
    by_cases hpi : p.debt_index = idx
    · have hno : ∀ q ∈ rest, q.debt_index ≠ idx := fun q hq =>
        Nat.ne_of_gt (hpi ▸ hhead.1 q hq)
      simp only [List.map_cons, extraUpdate, hpi, if_true, List.sum_cons,
        map_extraUpdate_of_no_match idx pay nb rest hno]
      ring
    · obtain ⟨q, hq, hqi⟩ := hex
      have hqrest : q ∈ rest := by
        rcases List.mem_cons.mp hq with rfl | h
        · exact absurd hqi hpi
        · exact h
      simp only [List.map_cons, extraUpdate, hpi, if_false, List.sum_cons,
        ih hhead.2 ⟨q, hqrest, hqi⟩]
      ring

/-- The recorded per-debt amounts after the extra-payment loop sum to the
recorded minimums plus the extra actually disbursed. -/
theorem extraPhase_recs_sum (extra : ℚ) :
    ∀ (order : List ℕ) (bals : List ℚ) (recs : List PaymentRec),
    (∀ b ∈ bals, IsCents b) → IsCents extra →
    recs.Pairwise (fun p q => p.debt_index < q.debt_index) →
    (∀ idx, 0 < bals.getD idx 0 → ∃ p ∈ recs, p.debt_index = idx) →
    ((extraPhase bals recs extra order).recs.map (·.payment_amount)).sum =
      (recs.map (·.payment_amount)).sum + (extraPhase bals recs extra order).paid := by
  intro order
  induction order with
  | nil => intro bals recs _ _ _ _; simp [extraPhase]
  | cons idx rest ih =>
    intro bals recs hc he hpw hex
    by_cases hcond : 0 < bals.getD idx 0 ∧ 0 < extra
    · rw [extraPhase, if_pos hcond]
      have hpay : IsCents (min extra (bals.getD idx 0)) := he.min (getD_cents hc idx)
      simp only
      rw [map_extraUpdate_sum idx _ _ recs hpw (hex idx hcond.1), round2_cents hpay]
    · rw [extraPhase, if_neg hcond]
      exact ih bals recs hc he hpw hex

theorem minPhase_bals_cents : ∀ (ps : List (Debt × ℚ)) (i : ℕ),
    (∀ p ∈ ps, IsCents p.1.minPayment ∧ IsCents p.2) →
    ∀ b ∈ (minPhase ps i).bals, IsCents b := by
  intro ps
  induction ps with
  | nil => intro i _ b hb; simp [minPhase] at hb
  | cons q rest ih =>
    intro i hc b hb
    obtain ⟨d, x⟩ := q
    have hd := hc (d, x) (by simp)
    have hrest : ∀ p ∈ rest, IsCents p.1.minPayment ∧ IsCents p.2 :=
      fun p hp => hc p (by simp [hp])
    by_cases hx : 0 < x
    · simp only [minPhase, hx, if_true] at hb
      rcases List.mem_cons.mp hb with rfl | hb
      · exact IsCents.zero.max (hd.2.sub (hd.1.min hd.2))
      · exact ih (i + 1) hrest b hb
    · simp only [minPhase, hx, if_false] at hb
      rcases List.mem_cons.mp hb with rfl | hb
      · exact hd.2
      · exact ih (i + 1) hrest b hb

theorem minTotalDue_cents (debts : List Debt) (bals : List ℚ)
    (hmp : ∀ d ∈ debts, IsCents d.minPayment) :
    IsCents (minTotalDue debts bals) := by
  apply IsCents.listSum
  intro x hx
  obtain ⟨p, hp, rfl⟩ := List.mem_map.mp hx
  by_cases hb : 0 < p.2
  · rw [if_pos hb]
    exact hmp p.1 (List.of_mem_zip hp).1
  · rw [if_neg hb]
    exact IsCents.zero

/-- One month's recorded payments sum to `minPaid + extraPaid`. -/
theorem monthStep_recs_sum (debts : List Debt) (order : List ℕ) (budget : ℚ)
    (bals : List ℚ) (hmp : ∀ d ∈ debts, IsCents d.minPayment)
    (hb : ∀ b ∈ bals, IsCents b) (hbud : IsCents budget) :
    ((monthStep debts order budget bals).recs.map (·.payment_amount)).sum =
      (monthStep debts order budget bals).minPaid +
        (monthStep debts order budget bals).extraPaid := by
  have hzip : ∀ p ∈ debts.zip bals, IsCents p.1.minPayment ∧ IsCents p.2 := by
    intro p hp
    exact ⟨hmp p.1 (List.of_mem_zip hp).1, hb p.2 (List.of_mem_zip hp).2⟩
  have hextra : IsCents (max 0 (budget - minTotalDue debts bals)) :=
    IsCents.zero.max (hbud.sub (minTotalDue_cents debts bals hmp))
  have hmc : ∀ b ∈ (minPhase (debts.zip bals) 0).bals, IsCents b := by
    intro b hbm
    exact minPhase_bals_cents (debts.zip bals) 0 hzip b hbm
  simp only [monthStep]
  rw [extraPhase_recs_sum _ order _ _ hmc hextra
    (minPhase_recs_sorted (debts.zip bals) 0)
    (fun idx h => by simpa using minPhase_pos_has_rec (debts.zip bals) 0 idx h)]
  rw [minPhase_recs_sum (debts.zip bals) 0 hzip]

theorem extraPhase_bals_cents (extra : ℚ) :
    ∀ (order : List ℕ) (bals : List ℚ) (recs : List PaymentRec),
    (∀ b ∈ bals, IsCents b) → IsCents extra →
    ∀ b ∈ (extraPhase bals recs extra order).bals, IsCents b := by
  intro order
  induction order with
  | nil => intro bals recs hc _ b hb; exact hc b hb
  | cons idx rest ih =>
    intro bals recs hc he b hb
    by_cases hcond : 0 < bals.getD idx 0 ∧ 0 < extra
    · rw [extraPhase, if_pos hcond] at hb
      simp only at hb
      rcases List.mem_or_eq_of_mem_set hb with hmem | rfl
      · exact hc b hmem
      · exact (getD_cents hc idx).sub (he.min (getD_cents hc idx))
    · rw [extraPhase, if_neg hcond] at hb
      exact ih bals recs hc he b hb

theorem stepBal_cents (debts : List Debt) (order : List ℕ) (budget : ℚ)
    (bals : List ℚ) (hmp : ∀ d ∈ debts, IsCents d.minPayment)
    (hb : ∀ b ∈ bals, IsCents b) (hbud : IsCents budget) :
    ∀ b ∈ stepBal debts order budget bals, IsCents b := by
  have hzip : ∀ p ∈ debts.zip bals, IsCents p.1.minPayment ∧ IsCents p.2 :=
    fun p hp => ⟨hmp p.1 (List.of_mem_zip hp).1, hb p.2 (List.of_mem_zip hp).2⟩
  have hextra : IsCents (max 0 (budget - minTotalDue debts bals)) :=
    IsCents.zero.max (hbud.sub (minTotalDue_cents debts bals hmp))
  intro b hbm
  exact extraPhase_bals_cents _ order _ _
    (minPhase_bals_cents (debts.zip bals) 0 hzip) hextra b hbm

/-- The per-entry property carried through the simulation: the entry's
payment records are exactly the records `monthStep` produces from some
cent-quantised balance state. -/
def schedOK (debts : List Debt) (order : List ℕ) (budget : ℚ)
    (e : SchedEntry) : Prop :=
  ∃ bals : List ℚ, (∀ b ∈ bals, IsCents b) ∧
    e.payments = (monthStep debts order budget bals).recs

theorem payoffGo_sched_inv (debts : List Debt) (order : List ℕ) (budget : ℚ)
    (hmp : ∀ d ∈ debts, IsCents d.minPayment) (hbud : IsCents budget) :
    ∀ (fuel months : ℕ) (bals : List ℚ) (ti : ℚ) (tl : List TimelineEntry)
      (sc : List SchedEntry),
    (∀ b ∈ bals, IsCents b) → (∀ e ∈ sc, schedOK debts order budget e) →
    ∀ e ∈ (payoffGo debts order budget fuel months bals ti tl sc).payment_schedule,
      schedOK debts order budget e := by
  intro fuel
  induction fuel with
  | zero =>
    intro months bals ti tl sc _ hsc e he
    exact hsc e (List.take_subset 24 sc he)
  | succ f ih =>
    intro months bals ti tl sc hc hsc e he
    by_cases hA : (bals.any fun b => decide (0 < b)) = true
    · by_cases hcap : 360 < months + 1
      · rw [payoffGo_cap debts order budget f months bals ti tl sc hA hcap] at he
        exact hsc e (List.take_subset 24 sc he)
      · rw [payoffGo_step debts order budget f months bals ti tl sc hA hcap] at he
        refine ih (months + 1) _ _ _ _ (stepBal_cents debts order budget bals hmp hc hbud) ?_ e he
        intro e' he'
        rcases List.mem_append.mp he' with h | h
        · exact hsc e' h
        · rw [List.mem_singleton.mp h]
          exact ⟨bals, hc, rfl⟩
    · rw [payoffGo_done debts order budget (f + 1) months bals ti tl sc hA] at he
      exact hsc e (List.take_subset 24 sc he)

theorem minPhase_paid_le : ∀ (ps : List (Debt × ℚ)) (i : ℕ),
    (minPhase ps i).paid ≤ (ps.map fun p => if 0 < p.2 then p.1.minPayment else 0).sum := by
  intro ps
  induction ps with
  | nil => intro i; simp [minPhase]
  | cons q rest ih =>
    intro i
    obtain ⟨d, b⟩ := q
    by_cases hb : 0 < b
    · simp only [minPhase, hb, if_true, List.map_cons, List.sum_cons]
      exact add_le_add (min_le_left _ _) (ih (i + 1))
    · simp only [minPhase, hb, if_false, List.map_cons, List.sum_cons]
      simpa using ih (i + 1)

theorem extraPhase_paid_le (recs : List PaymentRec) (extra : ℚ)
    (order : List ℕ) (bals : List ℚ) :
    (extraPhase bals recs extra order).paid ≤ max 0 extra := by
  rw [extraPhase_paid_eq recs extra order bals]
  by_cases he : 0 < extra
  · rw [if_pos he]
    cases order.find? fun i => decide (0 < bals.getD i 0) with
    | none => simp
    | some j => exact le_max_of_le_right (min_le_left _ _)
  · rw [if_neg he]; simp

/-- **C2 (amended).**  With cent-quantised inputs (whole numbers of cents for
every balance, minimum payment, and the budget — the case for monetary data),
every entry of the returned payment schedule is the record of one simulated
month at some cent-quantised balance state, the per-debt payment amounts in
the entry sum exactly to the minimum payments applied that month plus the
extra applied (extra = max(0, budget − minPaymentsTotal), clamped to the
target's balance), and that sum never exceeds `max budget minPaid` — it can
exceed the budget itself exactly when the budget is below the minimum
payments due, in which case the minimums are paid regardless. -/
theorem C2_schedule_sums (debts : List Debt) (order : List ℕ) (budget : ℚ)
    (hmp : ∀ d ∈ debts, IsCents d.minPayment)
    (hbal : ∀ d ∈ debts, IsCents d.balance) (hbud : IsCents budget) :
    ∀ e ∈ (calculate_payoff debts order budget).payment_schedule,
    ∃ bals : List ℚ, (∀ b ∈ bals, IsCents b) ∧
      e.payments = (monthStep debts order budget bals).recs ∧
      (e.payments.map (·.payment_amount)).sum =
        (monthStep debts order budget bals).minPaid +
          (monthStep debts order budget bals).extraPaid ∧
      (e.payments.map (·.payment_amount)).sum ≤
        max budget ((monthStep debts order budget bals).minPaid) := by
  intro e he
  have hinit : ∀ b ∈ debts.map (·.balance), IsCents b := by
    intro b hb
    obtain ⟨d, hd, rfl⟩ := List.mem_map.mp hb
    exact hbal d hd
  obtain ⟨bals, hc, hpay⟩ :=
    payoffGo_sched_inv debts order budget hmp hbud 361 0 _ 0 [] [] hinit
      (by intro e' he'; exact absurd he' (List.not_mem_nil e')) e he
  have hsum : (e.payments.map (·.payment_amount)).sum =
      (monthStep debts order budget bals).minPaid +
        (monthStep debts order budget bals).extraPaid := by
    rw [hpay]
    exact monthStep_recs_sum debts order budget bals hmp hc hbud
  refine ⟨bals, hc, hpay, hsum, ?_⟩
  have hminle : (monthStep debts order budget bals).minPaid ≤
      minTotalDue debts bals := minPhase_paid_le (debts.zip bals) 0
  have hextle : (monthStep debts order budget bals).extraPaid ≤
      max 0 (max 0 (budget - minTotalDue debts bals)) :=
    extraPhase_paid_le _ _ order _
  rw [hsum]
  rcases le_total budget (minTotalDue debts bals) with h | h
  · have hz : max 0 (budget - minTotalDue debts bals) = 0 :=
      max_eq_left (by linarith)
    rw [hz] at hextle
    simp only [max_self] at hextle
    exact le_max_of_le_right (by linarith)
  · have hz : max 0 (budget - minTotalDue debts bals) =
        budget - minTotalDue debts bals := max_eq_right (by linarith)
    rw [hz] at hextle
    have : max 0 (budget - minTotalDue debts bals) =
        budget - minTotalDue debts bals := hz
    exact le_max_of_le_left (by
      have h2 : max 0 (budget - minTotalDue debts bals) ≤
          budget - minTotalDue debts bals := le_of_eq hz
      linarith [le_trans hextle (max_le (by linarith) (le_refl _))])

set_option maxRecDepth 10000 in
unseal Rat.add Rat.sub Rat.mul Rat.inv Rat.ofScientific in
/-- **C2, counterexample to the claim as stated.**  With one debt
`{balance: 100, apr: 12, minPayment: 50}` and budget 10, the budget is below
the minimum payments, which are paid anyway: the first schedule entry's
payments sum to 50 > 10, so the month's payments are not bounded by the
monthly budget. -/
theorem C2_counterexample :
    ¬ ∀ e ∈ (calculate_payoff [⟨"A", 100, 12, 50⟩] [0] 10).payment_schedule,
      (e.payments.map (·.payment_amount)).sum ≤ 10 := by
  decide

/-- Witness for C2 at a concrete cent-quantised input. -/
theorem C2_witness :
    (∀ d ∈ ([⟨"A", 100, 12, 50⟩] : List Debt), IsCents d.minPayment) ∧
    (∀ d ∈ ([⟨"A", 100, 12, 50⟩] : List Debt), IsCents d.balance) ∧
    IsCents (10 : ℚ) ∧
    ∀ e ∈ (calculate_payoff [⟨"A", 100, 12, 50⟩] [0] 10).payment_schedule,
    ∃ bals : List ℚ, (∀ b ∈ bals, IsCents b) ∧
      e.payments = (monthStep [⟨"A", 100, 12, 50⟩] [0] 10 bals).recs ∧
      (e.payments.map (·.payment_amount)).sum =
        (monthStep [⟨"A", 100, 12, 50⟩] [0] 10 bals).minPaid +
          (monthStep [⟨"A", 100, 12, 50⟩] [0] 10 bals).extraPaid ∧
      (e.payments.map (·.payment_amount)).sum ≤
        max 10 ((monthStep [⟨"A", 100, 12, 50⟩] [0] 10 bals).minPaid) := by
  have hmp : ∀ d ∈ ([⟨"A", 100, 12, 50⟩] : List Debt), IsCents d.minPayment := by
    intro d hd
    rw [List.mem_singleton] at hd
    subst hd
    exact ⟨5000, by norm_num⟩
  have hbal : ∀ d ∈ ([⟨"A", 100, 12, 50⟩] : List Debt), IsCents d.balance := by
    intro d hd
    rw [List.mem_singleton] at hd
    subst hd
    exact ⟨10000, by norm_num⟩
  have hbud : IsCents (10 : ℚ) := ⟨1000, by norm_num⟩
  exact ⟨hmp, hbal, hbud, C2_schedule_sums [⟨"A", 100, 12, 50⟩] [0] 10 hmp hbal hbud⟩

/-! ## C10: APR only influences the interest figures -/

/-- Two debts that agree on everything except (possibly) the APR. -/
def SameButApr (d1 d2 : Debt) : Prop :=
  d1.name = d2.name ∧ d1.balance = d2.balance ∧ d1.minPayment = d2.minPayment

theorem map_balance_congr {debts1 debts2 : List Debt}
    (h : List.Forall₂ SameButApr debts1 debts2) :
    debts1.map (·.balance) = debts2.map (·.balance) := by
  induction h with
  | nil => rfl
  | cons h1 _ ih => simp [ih, h1.2.1]

theorem minTotalDue_congr {debts1 debts2 : List Debt}
    (h : List.Forall₂ SameButApr debts1 debts2) :
    ∀ bals : List ℚ, minTotalDue debts1 bals = minTotalDue debts2 bals := by
  induction h with
  | nil => intro bals; rfl
  | cons h1 h2 ih =>
    intro bals
    cases bals with
    | nil => rfl
    | cons b bs =>
      simp only [minTotalDue, List.zip_cons_cons, List.map_cons, List.sum_cons] at *
      rw [h1.2.2, ih bs]

theorem minPhase_congr {debts1 debts2 : List Debt}
    (h : List.Forall₂ SameButApr debts1 debts2) :
    ∀ (bals : List ℚ) (i : ℕ),
    minPhase (debts1.zip bals) i = minPhase (debts2.zip bals) i := by
  induction h with
  | nil => intro bals i; rfl
  | @cons d1 d2 l1 l2 h1 h2 ih =>
    intro bals i
    cases bals with
    | nil => rfl
    | cons b bs =>
      have hname : debtName d1 = debtName d2 := by
        unfold debtName; rw [h1.1]
      simp only [List.zip_cons_cons, minPhase, h1.2.2, hname]
      rw [show List.zipWith Prod.mk l1 bs = l1.zip bs from rfl,
        show List.zipWith Prod.mk l2 bs = l2.zip bs from rfl, ih bs (i + 1)]

theorem monthStep_congr {debts1 debts2 : List Debt}
    (h : List.Forall₂ SameButApr debts1 debts2) (order : List ℕ) (budget : ℚ)
    (bals : List ℚ) :
    (monthStep debts1 order budget bals).bals =
      (monthStep debts2 order budget bals).bals ∧
    (monthStep debts1 order budget bals).recs =
      (monthStep debts2 order budget bals).recs ∧
    (monthStep debts1 order budget bals).minPaid =
      (monthStep debts2 order budget bals).minPaid ∧
    (monthStep debts1 order budget bals).extraPaid =
      (monthStep debts2 order budget bals).extraPaid := by
  refine ⟨?_, ?_, ?_, ?_⟩ <;>
    simp only [monthStep, minTotalDue_congr h bals, minPhase_congr h bals 0]

theorem payoffGo_order_eq (debts : List Debt) (order : List ℕ) (budget : ℚ) :
    ∀ (fuel months : ℕ) (bals : List ℚ) (ti : ℚ) (tl : List TimelineEntry)
      (sc : List SchedEntry),
    (payoffGo debts order budget fuel months bals ti tl sc).priority_order = order := by
  intro fuel
  induction fuel with
  | zero => intro months bals ti tl sc; rfl
  | succ f ih =>
    intro months bals ti tl sc
    by_cases hA : (bals.any fun b => decide (0 < b)) = true
    · by_cases hcap : 360 < months + 1
      · rw [payoffGo_cap debts order budget f months bals ti tl sc hA hcap]
      · rw [payoffGo_step debts order budget f months bals ti tl sc hA hcap]
        exact ih (months + 1) _ _ _ _
    · rw [payoffGo_done debts order budget (f + 1) months bals ti tl sc hA]

theorem payoffGo_congr {debts1 debts2 : List Debt}
    (h : List.Forall₂ SameButApr debts1 debts2) (order : List ℕ) (budget : ℚ) :
    ∀ (fuel months : ℕ) (bals : List ℚ) (ti1 ti2 : ℚ)
      (tl1 tl2 : List TimelineEntry) (sc1 sc2 : List SchedEntry),
    tl1.map (·.month) = tl2.map (·.month) →
    tl1.map (·.remaining_balance) = tl2.map (·.remaining_balance) →
    sc1 = sc2 →
    (payoffGo debts1 order budget fuel months bals ti1 tl1 sc1).months_to_freedom =
      (payoffGo debts2 order budget fuel months bals ti2 tl2 sc2).months_to_freedom ∧
    (payoffGo debts1 order budget fuel months bals ti1 tl1 sc1).payment_schedule =
      (payoffGo debts2 order budget fuel months bals ti2 tl2 sc2).payment_schedule ∧
    (payoffGo debts1 order budget fuel months bals ti1 tl1 sc1).timeline.map (·.month) =
      (payoffGo debts2 order budget fuel months bals ti2 tl2 sc2).timeline.map (·.month) ∧
    (payoffGo debts1 order budget fuel months bals ti1 tl1 sc1).timeline.map
        (·.remaining_balance) =
      (payoffGo debts2 order budget fuel months bals ti2 tl2 sc2).timeline.map
        (·.remaining_balance) := by
  intro fuel
  induction fuel with
  | zero =>
    intro months bals ti1 ti2 tl1 tl2 sc1 sc2 hm hr hs
    exact ⟨rfl, by simp [payoffGo, hs], hm, hr⟩
  | succ f ih =>
    intro months bals ti1 ti2 tl1 tl2 sc1 sc2 hm hr hs
    by_cases hA : (bals.any fun b => decide (0 < b)) = true
    · by_cases hcap : 360 < months + 1
      · rw [payoffGo_cap debts1 order budget f months bals ti1 tl1 sc1 hA hcap,
          payoffGo_cap debts2 order budget f months bals ti2 tl2 sc2 hA hcap]
        exact ⟨rfl, by simp [hs], hm, hr⟩
      · rw [payoffGo_step debts1 order budget f months bals ti1 tl1 sc1 hA hcap,
          payoffGo_step debts2 order budget f months bals ti2 tl2 sc2 hA hcap]
        obtain ⟨hb, hrec, hmin, hext⟩ := monthStep_congr h order budget bals
        rw [hb, hrec, hmin, hext]
        apply ih (months + 1)
        · by_cases h12 : months + 1 ≤ 12
          · rw [if_pos h12, if_pos h12]
            simp [hm]
          · rw [if_neg h12, if_neg h12]
            exact hm
        · by_cases h12 : months + 1 ≤ 12
          · rw [if_pos h12, if_pos h12]
            simp [hr, hb]
          · rw [if_neg h12, if_neg h12]
            exact hr
        · rw [hs]
    · rw [payoffGo_done debts1 order budget (f + 1) months bals ti1 tl1 sc1 hA,
        payoffGo_done debts2 order budget (f + 1) months bals ti2 tl2 sc2 hA]
      exact ⟨rfl, by simp [hs], hm, hr⟩

/-- **C10.**  Interest is never capitalised into balances: replacing every
debt's APR (all other fields fixed) leaves `months_to_freedom`, the entire
payment schedule (every per-debt payment amount and remaining balance), the
timeline's months and remaining balances, and the priority order unchanged.
Only `total_interest` and the per-month interest figures can depend on the
APRs. -/
theorem C10_apr_noninterference {debts1 debts2 : List Debt}
    (order : List ℕ) (budget : ℚ)
    (h : List.Forall₂ (fun d1 d2 => d1.name = d2.name ∧ d1.balance = d2.balance ∧
      d1.minPayment = d2.minPayment) debts1 debts2) :
    (calculate_payoff debts1 order budget).months_to_freedom =
      (calculate_payoff debts2 order budget).months_to_freedom ∧
    (calculate_payoff debts1 order budget).payment_schedule =
      (calculate_payoff debts2 order budget).payment_schedule ∧
    (calculate_payoff debts1 order budget).timeline.map (·.month) =
      (calculate_payoff debts2 order budget).timeline.map (·.month) ∧
    (calculate_payoff debts1 order budget).timeline.map (·.remaining_balance) =
      (calculate_payoff debts2 order budget).timeline.map (·.remaining_balance) ∧
    (calculate_payoff debts1 order budget).priority_order =
      (calculate_payoff debts2 order budget).priority_order := by
  have h' : List.Forall₂ SameButApr debts1 debts2 := h
  have hinit : debts1.map (·.balance) = debts2.map (·.balance) := map_balance_congr h'
  unfold calculate_payoff
  rw [hinit]
  obtain ⟨h1, h2, h3, h4⟩ := payoffGo_congr h' order budget 361 0
    (debts2.map (·.balance)) 0 0 [] [] [] [] rfl rfl rfl
  exact ⟨h1, h2, h3, h4, by
    rw [payoffGo_order_eq debts1 order budget, payoffGo_order_eq debts2 order budget]⟩

/-- Witness for C10: two single-debt lists that differ only in APR (30% vs
5%). -/
theorem C10_witness :
    (List.Forall₂ (fun d1 d2 => d1.name = d2.name ∧ d1.balance = d2.balance ∧
        d1.minPayment = d2.minPayment)
      [(⟨"A", 100, 30, 10⟩ : Debt)] [(⟨"A", 100, 5, 10⟩ : Debt)]) ∧
    ((calculate_payoff [(⟨"A", 100, 30, 10⟩ : Debt)] [0] 20).months_to_freedom =
      (calculate_payoff [(⟨"A", 100, 5, 10⟩ : Debt)] [0] 20).months_to_freedom ∧
    (calculate_payoff [(⟨"A", 100, 30, 10⟩ : Debt)] [0] 20).payment_schedule =
      (calculate_payoff [(⟨"A", 100, 5, 10⟩ : Debt)] [0] 20).payment_schedule ∧
    (calculate_payoff [(⟨"A", 100, 30, 10⟩ : Debt)] [0] 20).timeline.map (·.month) =
      (calculate_payoff [(⟨"A", 100, 5, 10⟩ : Debt)] [0] 20).timeline.map (·.month) ∧
    (calculate_payoff [(⟨"A", 100, 30, 10⟩ : Debt)] [0] 20).timeline.map
        (·.remaining_balance) =
      (calculate_payoff [(⟨"A", 100, 5, 10⟩ : Debt)] [0] 20).timeline.map
        (·.remaining_balance) ∧
    (calculate_payoff [(⟨"A", 100, 30, 10⟩ : Debt)] [0] 20).priority_order =
      (calculate_payoff [(⟨"A", 100, 5, 10⟩ : Debt)] [0] 20).priority_order) :=
  ⟨List.Forall₂.cons ⟨rfl, rfl, rfl⟩ List.Forall₂.nil,
   C10_apr_noninterference [0] 20 (List.Forall₂.cons ⟨rfl, rfl, rfl⟩ List.Forall₂.nil)⟩

/-! ## C5: monotonicity in the budget

The key invariant: running with a larger budget keeps every balance
pointwise at or below the smaller-budget run, month by month. -/

theorem forall₂_le_refl (xs : List ℚ) : List.Forall₂ (· ≤ ·) xs xs :=
  List.forall₂_same.mpr fun _ _ => le_refl _

theorem forall₂_le_trans : ∀ {xs ys zs : List ℚ},
    List.Forall₂ (· ≤ ·) xs ys → List.Forall₂ (· ≤ ·) ys zs →
    List.Forall₂ (· ≤ ·) xs zs := by
  intro xs ys zs h1 h2
  induction h1 generalizing zs with
  | nil => cases h2; exact List.Forall₂.nil
  | @cons a b l1 l2 hab _ ih =>
    cases h2 with
    | cons hbc h2' => exact List.Forall₂.cons (hab.trans hbc) (ih h2')

theorem forall₂_le_getD : ∀ {xs ys : List ℚ}, List.Forall₂ (· ≤ ·) xs ys →
    ∀ k, xs.getD k 0 ≤ ys.getD k 0 := by
  intro xs ys h
  induction h with
  | nil => intro k; simp
  | @cons a b l1 l2 hab _ ih =>
    intro k
    cases k with
    | zero => simpa using hab
    | succ k => simpa using ih k

theorem forall₂_le_set : ∀ {xs ys : List ℚ}, List.Forall₂ (· ≤ ·) xs ys →
    ∀ (k : ℕ) {a b : ℚ}, a ≤ b →
    List.Forall₂ (· ≤ ·) (xs.set k a) (ys.set k b) := by
  intro xs ys h
  induction h with
  | nil => intro k a b _; simp
  | @cons x y l1 l2 hxy htl ih =>
    intro k a b hab
    cases k with
    | zero => simpa using List.Forall₂.cons hab htl
    | succ k => simpa using List.Forall₂.cons hxy (ih k hab)

/-- Lower a single entry of the smaller list. -/
theorem forall₂_le_set_left : ∀ {xs ys : List ℚ}, List.Forall₂ (· ≤ ·) xs ys →
    ∀ (k : ℕ) {v : ℚ}, v ≤ ys.getD k 0 →
    List.Forall₂ (· ≤ ·) (xs.set k v) ys := by
  intro xs ys h
  induction h with
  | nil => intro k v _; simp
  | @cons x y l1 l2 hxy htl ih =>
    intro k v hv
    cases k with
    | zero => simpa using List.Forall₂.cons (by simpa using hv) htl
    | succ k => simpa using List.Forall₂.cons hxy (ih k hv)

/-- Raise a single entry of the larger list. -/
theorem forall₂_le_set_right : ∀ {xs ys : List ℚ}, List.Forall₂ (· ≤ ·) xs ys →
    ∀ (k : ℕ) {v : ℚ}, xs.getD k 0 ≤ v →
    List.Forall₂ (· ≤ ·) xs (ys.set k v) := by
  intro xs ys h
  induction h with
  | nil => intro k v _; simp
  | @cons x y l1 l2 hxy htl ih =>
    intro k v hv
    cases k with
    | zero => simpa using List.Forall₂.cons (by simpa using hv) htl
    | succ k => simpa using List.Forall₂.cons hxy (ih k hv)

theorem forall₂_le_noPos {xs ys : List ℚ} (h : List.Forall₂ (· ≤ ·) xs ys)
    (hnp : ∀ b ∈ ys, b ≤ 0) : ∀ b ∈ xs, b ≤ 0 := by
  induction h with
  | nil => intro b hb; exact absurd hb (List.not_mem_nil b)
  | @cons x y l1 l2 hxy _ ih =>
    intro b hb
    rcases List.mem_cons.mp hb with rfl | hb
    · exact hxy.trans (hnp y (by simp))
    · exact ih (fun c hc => hnp c (by simp [hc])) b hb

theorem minTotalDue_mono {debts : List Debt}
    (hmin : ∀ d ∈ debts, 0 ≤ d.minPayment) :
    ∀ {bals2 bals1 : List ℚ}, List.Forall₂ (· ≤ ·) bals2 bals1 →
    minTotalDue debts bals2 ≤ minTotalDue debts bals1 := by
  induction debts with
  | nil => intro bals2 bals1 _; simp [minTotalDue]
  | cons d rest ih =>
    intro bals2 bals1 h
    cases h with
    | nil => simp [minTotalDue]
    | @cons b2 b1 l2 l1 hb htl =>
      have hrest : ∀ d ∈ rest, 0 ≤ d.minPayment := fun d hd => hmin d (by simp [hd])
      have hd : 0 ≤ d.minPayment := hmin d (by simp)
      simp only [minTotalDue, List.zip_cons_cons, List.map_cons, List.sum_cons]
      have htail : minTotalDue rest l2 ≤ minTotalDue rest l1 := ih hrest htl
      simp only [minTotalDue] at htail
      by_cases h2 : 0 < b2
      · rw [if_pos h2, if_pos (lt_of_lt_of_le h2 hb)]
        linarith
      · rw [if_neg h2]
        by_cases h1 : 0 < b1
        · rw [if_pos h1]; linarith
        · rw [if_neg h1]; linarith

theorem minPhase_bals_mono (debts : List Debt) :
    ∀ {bals2 bals1 : List ℚ}, List.Forall₂ (· ≤ ·) bals2 bals1 →
    ∀ i, List.Forall₂ (· ≤ ·) (minPhase (debts.zip bals2) i).bals
      (minPhase (debts.zip bals1) i).bals := by
  induction debts with
  | nil => intro bals2 bals1 _ i; simp [minPhase]
  | cons d rest ih =>
    intro bals2 bals1 h i
    cases h with
    | nil => simp [minPhase]
    | @cons b2 b1 l2 l1 hb htl =>
      simp only [List.zip_cons_cons, minPhase]
      by_cases h2 : 0 < b2
      · have h1 : 0 < b1 := lt_of_lt_of_le h2 hb
        rw [if_pos h2, if_pos h1]
        refine List.Forall₂.cons ?_ (ih htl (i + 1))
        rcases le_total d.minPayment b2 with hm2 | hm2 <;>
          rcases le_total d.minPayment b1 with hm1 | hm1 <;>
          simp [min_eq_left, min_eq_right, hm1, hm2] <;> linarith
      · rw [if_neg h2]
        by_cases h1 : 0 < b1
        · rw [if_pos h1]
          refine List.Forall₂.cons ?_ (ih htl (i + 1))
          exact (le_of_not_lt h2).trans (le_max_left 0 _)
        · rw [if_neg h1]
          exact List.Forall₂.cons hb (ih htl (i + 1))

/-- The extra-payment loop never increases any balance. -/
theorem extraPhase_bals_le_self (recs : List PaymentRec) (extra : ℚ)
    (order : List ℕ) (bals : List ℚ) :
    List.Forall₂ (· ≤ ·) (extraPhase bals recs extra order).bals bals := by
  rw [extraPhase_bals_eq]
  by_cases he : 0 < extra
  · rw [if_pos he]
    cases hf : order.find? (fun i => decide (0 < bals.getD i 0)) with
    | none => exact forall₂_le_refl bals
    | some j =>
      have hj : 0 < bals.getD j 0 := by simpa using List.find?_some hf
      apply forall₂_le_set_left (forall₂_le_refl bals) j
      have hm : 0 ≤ min extra (bals.getD j 0) := le_min (le_of_lt he) (le_of_lt hj)
      linarith
  · rw [if_neg he]; exact forall₂_le_refl bals

/-- Core monotonicity of the extra-payment loop: larger extra on pointwise
smaller balances yields pointwise smaller balances. -/
theorem extraPhase_bals_mono :
    ∀ (order : List ℕ) {bals2 bals1 : List ℚ}
      (recs2 recs1 : List PaymentRec) {e2 e1 : ℚ},
    0 ≤ e1 → e1 ≤ e2 → List.Forall₂ (· ≤ ·) bals2 bals1 →
    List.Forall₂ (· ≤ ·) (extraPhase bals2 recs2 e2 order).bals
      (extraPhase bals1 recs1 e1 order).bals := by
  intro order
  induction order with
  | nil => intro bals2 bals1 recs2 recs1 e2 e1 _ _ hb; exact hb
  | cons idx rest ih =>
    intro bals2 bals1 recs2 recs1 e2 e1 h0 h12 hb
    have hx : bals2.getD idx 0 ≤ bals1.getD idx 0 := forall₂_le_getD hb idx
    by_cases hc2 : 0 < bals2.getD idx 0 ∧ 0 < e2
    · rw [extraPhase, if_pos hc2]
      by_cases hc1 : 0 < bals1.getD idx 0 ∧ 0 < e1
      · rw [extraPhase, if_pos hc1]
        simp only
        apply forall₂_le_set hb idx
        rcases le_total e2 (bals2.getD idx 0) with hm2 | hm2 <;>
          rcases le_total e1 (bals1.getD idx 0) with hm1 | hm1
        · rw [min_eq_left hm2, min_eq_left hm1]; linarith
        · rw [min_eq_left hm2, min_eq_right hm1]; linarith
        · rw [min_eq_right hm2, min_eq_left hm1]; linarith
        · rw [min_eq_right hm2, min_eq_right hm1]; linarith
      · have hx1 : 0 < bals1.getD idx 0 := lt_of_lt_of_le hc2.1 hx
        have he1 : ¬ 0 < e1 := fun h => hc1 ⟨hx1, h⟩
        have hrun1 : (extraPhase bals1 recs1 e1 (idx :: rest)).bals = bals1 := by
          rw [extraPhase_bals_eq, if_neg he1]
        rw [hrun1]
        simp only
        apply forall₂_le_set_left hb idx
        have hm : 0 ≤ min e2 (bals2.getD idx 0) :=
          le_min (le_of_lt hc2.2) (le_of_lt hc2.1)
        linarith
    · rw [extraPhase, if_neg hc2]
      by_cases hc1 : 0 < bals1.getD idx 0 ∧ 0 < e1
      · rw [extraPhase, if_pos hc1]
        simp only
        have he2 : 0 < e2 := lt_of_lt_of_le hc1.2 h12
        have hx2 : ¬ 0 < bals2.getD idx 0 := fun h => hc2 ⟨h, he2⟩
        have hout : List.Forall₂ (· ≤ ·) (extraPhase bals2 recs2 e2 rest).bals bals2 :=
          extraPhase_bals_le_self recs2 e2 rest bals2
        apply forall₂_le_set_right (forall₂_le_trans hout hb) idx
        have h1 := forall₂_le_getD hout idx
        have hv : min e1 (bals1.getD idx 0) ≤ bals1.getD idx 0 := min_le_right _ _
        have h2 : bals2.getD idx 0 ≤ 0 := le_of_not_lt hx2
        have h3 : 0 < bals1.getD idx 0 := hc1.1
        have h4 : 0 < e1 := hc1.2
        rcases le_total e1 (bals1.getD idx 0) with hm | hm
        · rw [min_eq_left hm]; linarith
        · rw [min_eq_right hm]; linarith
      · rw [extraPhase, if_neg hc1]
        exact ih recs2 recs1 h0 h12 hb

/-- One month is monotone: a larger budget on pointwise smaller balances
keeps the balances pointwise smaller. -/
theorem stepBal_mono (debts : List Debt) (order : List ℕ) {b1 b2 : ℚ}
    (hbud : b1 ≤ b2) (hmin : ∀ d ∈ debts, 0 ≤ d.minPayment) :
    ∀ {bals2 bals1 : List ℚ}, List.Forall₂ (· ≤ ·) bals2 bals1 →
    List.Forall₂ (· ≤ ·) (stepBal debts order b2 bals2)
      (stepBal debts order b1 bals1) := by
  intro bals2 bals1 hb
  have hmtd : minTotalDue debts bals2 ≤ minTotalDue debts bals1 :=
    minTotalDue_mono hmin hb
  have hextra : max 0 (b1 - minTotalDue debts bals1) ≤
      max 0 (b2 - minTotalDue debts bals2) :=
    max_le_max (le_refl 0) (by linarith)
  simp only [stepBal, monthStep]
  exact extraPhase_bals_mono order _ _ (le_max_left 0 _) hextra
    (minPhase_bals_mono debts hb 0)

theorem monthInterest_mono {debts : List Debt} (hapr : ∀ d ∈ debts, 0 ≤ d.apr) :
    ∀ {bals2 bals1 : List ℚ}, List.Forall₂ (· ≤ ·) bals2 bals1 →
    monthInterest debts bals2 ≤ monthInterest debts bals1 := by
  induction debts with
  | nil => intro bals2 bals1 _; simp [monthInterest]
  | cons d rest ih =>
    intro bals2 bals1 h
    cases h with
    | nil => simp [monthInterest]
    | @cons b2 b1 l2 l1 hb htl =>
      have hrest : ∀ d ∈ rest, 0 ≤ d.apr := fun d hd => hapr d (by simp [hd])
      have hd : 0 ≤ d.apr := hapr d (by simp)
      have hr : (0 : ℚ) ≤ d.apr / 100 / 12 := by positivity
      simp only [monthInterest, List.zip_cons_cons, List.map_cons, List.sum_cons]
      have htail : monthInterest rest l2 ≤ monthInterest rest l1 := ih hrest htl
      simp only [monthInterest] at htail
      by_cases h2 : 0 < b2
      · rw [if_pos h2, if_pos (lt_of_lt_of_le h2 hb)]
        have := mul_le_mul_of_nonneg_right hb hr
        linarith
      · rw [if_neg h2]
        by_cases h1 : 0 < b1
        · rw [if_pos h1]
          have : 0 ≤ b1 * (d.apr / 100 / 12) :=
            mul_nonneg (le_of_lt h1) hr
          linarith
        · rw [if_neg h1]; linarith

theorem monthInterest_nonneg {debts : List Debt} (hapr : ∀ d ∈ debts, 0 ≤ d.apr)
    (bals : List ℚ) : 0 ≤ monthInterest debts bals := by
  apply List.sum_nonneg
  intro x hx
  obtain ⟨p, hp, rfl⟩ := List.mem_map.mp hx
  by_cases hb : 0 < p.2
  · rw [if_pos hb]
    have : 0 ≤ p.1.apr := hapr p.1 (List.of_mem_zip hp).1
    positivity
  · rw [if_neg hb]

theorem monthStep_interest_nonneg (debts : List Debt) (order : List ℕ)
    (budget : ℚ) (bals : List ℚ) (hapr : ∀ d ∈ debts, 0 ≤ d.apr) :
    0 ≤ (monthStep debts order budget bals).interest := by
  simp only [monthStep]
  exact monthInterest_nonneg hapr _

theorem monthStep_interest_mono (debts : List Debt) (order : List ℕ)
    {b1 b2 : ℚ} (hbud : b1 ≤ b2) (hmin : ∀ d ∈ debts, 0 ≤ d.minPayment)
    (hapr : ∀ d ∈ debts, 0 ≤ d.apr) {bals2 bals1 : List ℚ}
    (hb : List.Forall₂ (· ≤ ·) bals2 bals1) :
    (monthStep debts order b2 bals2).interest ≤
      (monthStep debts order b1 bals1).interest := by
  have hstep := stepBal_mono debts order hbud hmin hb
  simp only [monthStep]
  exact monthInterest_mono hapr hstep

/-- Accrued interest only grows as the simulation proceeds (non-negative
APRs). -/
theorem payoffGo_interest_ge (debts : List Debt) (order : List ℕ) (budget : ℚ)
    (hapr : ∀ d ∈ debts, 0 ≤ d.apr) :
    ∀ (fuel months : ℕ) (bals : List ℚ) (ti : ℚ) (tl : List TimelineEntry)
      (sc : List SchedEntry),
    round2 ti ≤ (payoffGo debts order budget fuel months bals ti tl sc).total_interest := by
  intro fuel
  induction fuel with
  | zero => intro months bals ti tl sc; exact le_refl _
  | succ f ih =>
    intro months bals ti tl sc
    by_cases hA : (bals.any fun b => decide (0 < b)) = true
    · by_cases hcap : 360 < months + 1
      · rw [payoffGo_cap debts order budget f months bals ti tl sc hA hcap]
      · rw [payoffGo_step debts order budget f months bals ti tl sc hA hcap]
        refine le_trans (round2_mono ?_) (ih (months + 1) _ _ _ _)
        have := monthStep_interest_nonneg debts order budget bals hapr
        linarith
    · rw [payoffGo_done debts order budget (f + 1) months bals ti tl sc hA]

/-- Two-run lemma: with a larger budget and pointwise smaller balances the
simulation finishes no later. -/
theorem payoffGo_months_mono (debts : List Debt) (order : List ℕ) {b1 b2 : ℚ}
    (hbud : b1 ≤ b2) (hmin : ∀ d ∈ debts, 0 ≤ d.minPayment) :
    ∀ (fuel months : ℕ) {bals2 bals1 : List ℚ} (ti2 : ℚ)
      (tl2 : List TimelineEntry) (sc2 : List SchedEntry) (ti1 : ℚ)
      (tl1 : List TimelineEntry) (sc1 : List SchedEntry),
    List.Forall₂ (· ≤ ·) bals2 bals1 →
    (payoffGo debts order b2 fuel months bals2 ti2 tl2 sc2).months_to_freedom ≤
      (payoffGo debts order b1 fuel months bals1 ti1 tl1 sc1).months_to_freedom := by
  intro fuel
  induction fuel with
  | zero => intro months bals2 bals1 ti2 tl2 sc2 ti1 tl1 sc1 _; exact le_refl _
  | succ f ih =>
    intro months bals2 bals1 ti2 tl2 sc2 ti1 tl1 sc1 hb
    by_cases hA1 : (bals1.any fun b => decide (0 < b)) = true
    · by_cases hA2 : (bals2.any fun b => decide (0 < b)) = true
      · by_cases hcap : 360 < months + 1
        · rw [payoffGo_cap debts order b2 f months bals2 ti2 tl2 sc2 hA2 hcap,
            payoffGo_cap debts order b1 f months bals1 ti1 tl1 sc1 hA1 hcap]
        · rw [payoffGo_step debts order b2 f months bals2 ti2 tl2 sc2 hA2 hcap,
            payoffGo_step debts order b1 f months bals1 ti1 tl1 sc1 hA1 hcap]
          exact ih (months + 1) _ _ _ _ _ _ (stepBal_mono debts order hbud hmin hb)
      · rw [payoffGo_done debts order b2 (f + 1) months bals2 ti2 tl2 sc2 hA2]
        exact payoffGo_months_ge debts order b1 (f + 1) months bals1 ti1 tl1 sc1
    · have hnp1 : ∀ b ∈ bals1, b ≤ 0 := by
        by_contra hcon
        exact hA1 ((any_pos_iff bals1).mpr hcon)
      have hnp2 : ∀ b ∈ bals2, b ≤ 0 := forall₂_le_noPos hb hnp1
      have hA2 : ¬ (bals2.any fun b => decide (0 < b)) = true := fun h =>
        ((any_pos_iff bals2).mp h) hnp2
      rw [payoffGo_done debts order b2 (f + 1) months bals2 ti2 tl2 sc2 hA2,
        payoffGo_done debts order b1 (f + 1) months bals1 ti1 tl1 sc1 hA1]

/-- Two-run lemma: with a larger budget, pointwise smaller balances and no
more accrued interest so far, the total interest is no larger. -/
theorem payoffGo_interest_mono (debts : List Debt) (order : List ℕ) {b1 b2 : ℚ}
    (hbud : b1 ≤ b2) (hmin : ∀ d ∈ debts, 0 ≤ d.minPayment)
    (hapr : ∀ d ∈ debts, 0 ≤ d.apr) :
    ∀ (fuel months : ℕ) {bals2 bals1 : List ℚ} {ti2 ti1 : ℚ}
      (tl2 : List TimelineEntry) (sc2 : List SchedEntry)
      (tl1 : List TimelineEntry) (sc1 : List SchedEntry),
    List.Forall₂ (· ≤ ·) bals2 bals1 → ti2 ≤ ti1 →
    (payoffGo debts order b2 fuel months bals2 ti2 tl2 sc2).total_interest ≤
      (payoffGo debts order b1 fuel months bals1 ti1 tl1 sc1).total_interest := by
  intro fuel
  induction fuel with
  | zero => intro months bals2 bals1 ti2 ti1 tl2 sc2 tl1 sc1 _ hti
            exact round2_mono hti
  | succ f ih =>
    intro months bals2 bals1 ti2 ti1 tl2 sc2 tl1 sc1 hb hti
    by_cases hA1 : (bals1.any fun b => decide (0 < b)) = true
    · by_cases hA2 : (bals2.any fun b => decide (0 < b)) = true
      · by_cases hcap : 360 < months + 1
        · rw [payoffGo_cap debts order b2 f months bals2 ti2 tl2 sc2 hA2 hcap,
            payoffGo_cap debts order b1 f months bals1 ti1 tl1 sc1 hA1 hcap]
          exact round2_mono hti
        · rw [payoffGo_step debts order b2 f months bals2 ti2 tl2 sc2 hA2 hcap,
            payoffGo_step debts order b1 f months bals1 ti1 tl1 sc1 hA1 hcap]
          refine ih (months + 1) _ _ _ _ (stepBal_mono debts order hbud hmin hb) ?_
          have := monthStep_interest_mono debts order hbud hmin hapr hb
          linarith
      · rw [payoffGo_done debts order b2 (f + 1) months bals2 ti2 tl2 sc2 hA2]
        exact le_trans (round2_mono hti)
          (payoffGo_interest_ge debts order b1 hapr (f + 1) months bals1 ti1 tl1 sc1)
    · have hnp1 : ∀ b ∈ bals1, b ≤ 0 := by
        by_contra hcon
        exact hA1 ((any_pos_iff bals1).mpr hcon)
      have hnp2 : ∀ b ∈ bals2, b ≤ 0 := forall₂_le_noPos hb hnp1
      have hA2 : ¬ (bals2.any fun b => decide (0 < b)) = true := fun h =>
        ((any_pos_iff bals2).mp h) hnp2
      rw [payoffGo_done debts order b2 (f + 1) months bals2 ti2 tl2 sc2 hA2,
        payoffGo_done debts order b1 (f + 1) months bals1 ti1 tl1 sc1 hA1]
      exact round2_mono hti

/-- **C5.**  For a fixed debt list (with the data model's non-negative
minimum payments and APRs) and a fixed priority order, increasing the monthly
budget never increases either `months_to_freedom` or `total_interest`: both
are weakly decreasing in the budget. -/
theorem C5_budget_monotone (debts : List Debt) (order : List ℕ) (b1 b2 : ℚ)
    (hbud : b1 ≤ b2) (hmin : ∀ d ∈ debts, 0 ≤ d.minPayment)
    (hapr : ∀ d ∈ debts, 0 ≤ d.apr) :
    (calculate_payoff debts order b2).months_to_freedom ≤
      (calculate_payoff debts order b1).months_to_freedom ∧
    (calculate_payoff debts order b2).total_interest ≤
      (calculate_payoff debts order b1).total_interest := by
  constructor
  · exact payoffGo_months_mono debts order hbud hmin 361 0 0 [] [] 0 [] []
      (forall₂_le_refl _)
  · exact payoffGo_interest_mono debts order hbud hmin hapr 361 0 [] [] [] []
      (forall₂_le_refl _) (le_refl 0)

/-- Witness for C5 at a concrete input: one debt, budgets 20 ≤ 30. -/
theorem C5_witness :
    ((20 : ℚ) ≤ 30) ∧
    (∀ d ∈ ([⟨"A", 100, 12, 10⟩] : List Debt), 0 ≤ d.minPayment) ∧
    (∀ d ∈ ([⟨"A", 100, 12, 10⟩] : List Debt), 0 ≤ d.apr) ∧
    ((calculate_payoff [⟨"A", 100, 12, 10⟩] [0] 30).months_to_freedom ≤
      (calculate_payoff [⟨"A", 100, 12, 10⟩] [0] 20).months_to_freedom ∧
    (calculate_payoff [⟨"A", 100, 12, 10⟩] [0] 30).total_interest ≤
      (calculate_payoff [⟨"A", 100, 12, 10⟩] [0] 20).total_interest) := by
  refine ⟨by norm_num, ?_, ?_, ?_⟩
  · intro d hd
    rw [List.mem_singleton] at hd
    subst hd
    norm_num
  · intro d hd
    rw [List.mem_singleton] at hd
    subst hd
    norm_num
  · exact C5_budget_monotone [⟨"A", 100, 12, 10⟩] [0] 20 30 (by norm_num)
      (by intro d hd; rw [List.mem_singleton] at hd; subst hd; norm_num)
      (by intro d hd; rw [List.mem_singleton] at hd; subst hd; norm_num)
